import Mathlib

/-!
# GDB2Script: a transcript of a GDB session turned into a timed typescript

A shallow embedding of `src/gdb2script.cpp`.

* A `char` is a `Char`; a `char` array, a `const char *` and a `std::string`
  are all `List Char`.  A pointer `p + k` into an array is `p.drop k`, and the
  C string found at a pointer is `cstr p`: the bytes before the first NUL.
* The `float` delays are held as whole microseconds, the six fractional
  digits that the timing stream prints (`precision(6)`, `fixed`).  The `float`
  values themselves are modelled as exact binary fractions (`Binary`), and
  `timing_line_format` shows that they print as those microseconds.
* `sfile` is the list of bytes written so far, `tfile` the list of frames
  written so far (one frame per line of the timing file).
* `ifile` is the unread input together with the `eofbit` and `failbit` of
  the stream.
* Of `main`, the option loop is embedded (`optionLoop`), with `getopt_long`
  modelled from its documented GNU behaviour.
-/

namespace GDB2Script

/-! ## C strings and `std::string` operations -/

/-- The byte that terminates a C string. -/
def NUL : Char := Char.ofNat 0

/-- The C string found at pointer `p`: the bytes before the first NUL. -/
def cstr (p : List Char) : List Char :=
  p.takeWhile (fun c => c != NUL)

/-- The function `strlen`. -/
def strlen (p : List Char) : Nat :=
  (cstr p).length

/-- The constant `std::string::npos` for a 64-bit `size_t`. -/
def npos : Nat := 2 ^ 64 - 1

/-- Search of `find_first_of`, `i` being the index of the head of the list. -/
def findFrom (ch : Char) : List Char → Nat → Nat
  | [], _ => npos
  | c :: cs, i => if c = ch then i else findFrom ch cs (i + 1)

/-- The method `std::string::find_first_of(char)`. -/
def find_first_of (s : List Char) (ch : Char) : Nat :=
  findFrom ch s 0

/-- The method `std::string::substr(pos, count)`. -/
def substr (s : List Char) (pos count : Nat) : List Char :=
  (s.drop pos).take count

/-- The method `std::string::compare`: negative, zero or positive. -/
def stringCompare : List Char → List Char → Int
  | [], [] => 0
  | [], _ :: _ => -1
  | _ :: _, [] => 1
  | a :: as, b :: bs =>
    if a < b then -1 else if b < a then 1 else stringCompare as bs

/-! ## `startsWith` and `pauseAfterLine` -/

/-- Source lines 27-29: `!PREFIX.compare(0, PREFIX.length(), LINE, PREFIX.length())`.
The second operand is the `PREFIX.length()` bytes found at `LINE`, whatever they are. -/
def startsWith (LINE PREFIX : List Char) : Int :=
  if stringCompare (substr PREFIX 0 PREFIX.length) (LINE.take PREFIX.length) = 0
  then 1 else 0

/-- The table `KEYWORDS` of `pauseAfterLine`, without its closing null pointer. -/
def KEYWORDS : List (List Char) :=
  [['c'], ['c', 'o', 'n', 't', 'i', 'n', 'u', 'e'], ['s'], ['s', 't', 'e', 'p']]

/-- The `while (*keyword)` loop of `pauseAfterLine`. -/
def keywordLoop (LINEWORD : List Char) : List (List Char) → Int
  | [] => 0
  | keyword :: more =>
    if stringCompare LINEWORD keyword = 0 then 1 else keywordLoop LINEWORD more

/-- Source lines 31-47. -/
def pauseAfterLine (LINE : List Char) : Int :=
  let LINEWORD := substr LINE 0 (find_first_of LINE ' ')
  keywordLoop LINEWORD KEYWORDS

/-! ## Constants of `gdb2script` -/

/-- One line of the timing file: a delay in microseconds and a byte count. -/
structure Frame where
  delay : Nat
  byteCount : Nat
deriving DecidableEq, Repr

/-- The escape byte `\033`. -/
def ESC : Char := Char.ofNat 27

/-- `PAUSE = 10` seconds. -/
def PAUSE : Nat := 10000000
/-- `TYPING = 0.1` seconds. -/
def TYPING : Nat := 100000
/-- `PROMPT = 2` seconds. -/
def PROMPT : Nat := 2000000
/-- `IMMEDIATE = 0.005` seconds. -/
def IMMEDIATE : Nat := 5000

/-- `"\033[0m"`. -/
def ANSI_RESET : List Char := [ESC, '[', '0', 'm']
/-- `"\033[36m"`. -/
def ANSI_PROMPT_COLOR : List Char := [ESC, '[', '3', '6', 'm']
/-- `"\033[33;1m"`. -/
def ANSI_INPUT_COLOR : List Char := [ESC, '[', '3', '3', ';', '1', 'm']
/-- `"\033[31m"`. -/
def ANSI_BREAK_COLOR : List Char := [ESC, '[', '3', '1', 'm']
/-- `"\007"`. -/
def ANSI_BELL : List Char := [Char.ofNat 7]
/-- `"(gdb) "`. -/
def GDB_PROMPT : List Char := ['(', 'g', 'd', 'b', ')', ' ']
/-- `"Breakpoint "`. -/
def BREAKPOINT : List Char :=
  ['B', 'r', 'e', 'a', 'k', 'p', 'o', 'i', 'n', 't', ' ']

/-- Source lines 62-63. -/
def PROMPT_LENGTH : Nat :=
  strlen ANSI_PROMPT_COLOR + GDB_PROMPT.length + strlen ANSI_INPUT_COLOR - 1
/-- Source line 64. -/
def RESET_LENGTH : Nat := strlen ANSI_RESET
/-- Source line 65. -/
def BREAKPOINT_LENGTH : Nat := strlen ANSI_BREAK_COLOR
/-- Source line 66. -/
def BELL_LENGTH : Nat := strlen ANSI_BELL

/-- What `std::endl` writes. -/
def endl : List Char := ['\n']

/-- The text of source line 74. -/
def BANNER : List Char := "Script generated with gdb2script".toList

/-- The text of source line 104. -/
def END_OF_FILE : List Char := "End of File".toList

/-! ## The body of the read loop -/

/-- The two output streams. -/
structure Streams where
  sfile : List Char
  tfile : List Frame
deriving DecidableEq, Repr

/-- Source lines 88-90: `for (; i; --i) tfile << TYPING << ' ' << 1 << std::endl;`. -/
def typingLoop : Nat → List Frame → List Frame
  | 0, tfile => tfile
  | i + 1, tfile => typingLoop i (tfile ++ [⟨TYPING, 1⟩])

/-- Source lines 79-91: the branch taken for a line that starts with `"(gdb) "`. -/
def promptBranch (line : List Char) (out : Streams) : Streams :=
  let pause : Nat := if pauseAfterLine (cstr (line.drop 6)) ≠ 0 then PAUSE else 0
  let sfile := out.sfile ++ ANSI_PROMPT_COLOR ++ GDB_PROMPT ++ ANSI_INPUT_COLOR
  let sfile := sfile ++ cstr (line.drop 6)
  let sfile := if pause ≠ 0 then sfile ++ ANSI_BELL else sfile
  let sfile := sfile ++ ANSI_RESET ++ endl
  let tfile := out.tfile ++ [⟨IMMEDIATE, PROMPT_LENGTH⟩]
  let tfile := tfile ++ [⟨PROMPT, 1⟩]
  let i := strlen (line.drop 6) + (if pause ≠ 0 then BELL_LENGTH else 0) + 1
  let tfile := typingLoop i tfile
  let tfile := tfile ++ [⟨pause + TYPING, RESET_LENGTH⟩]
  ⟨sfile, tfile⟩

/-- Source lines 93-95: the branch taken for a line that starts with `"Breakpoint "`. -/
def breakpointBranch (line : List Char) (out : Streams) : Streams :=
  ⟨out.sfile ++ ANSI_BREAK_COLOR ++ cstr line ++ ANSI_RESET ++ endl,
   out.tfile ++ [⟨IMMEDIATE, strlen line + BREAKPOINT_LENGTH + RESET_LENGTH + 1⟩]⟩

/-- Source lines 97-98: the branch taken for every other line. -/
def plainBranch (line : List Char) (out : Streams) : Streams :=
  ⟨out.sfile ++ cstr line ++ endl, out.tfile ++ [⟨IMMEDIATE, strlen line + 1⟩]⟩

/-- Source lines 78-99: what one pass of the loop writes for the buffer `line`. -/
def body (line : List Char) (out : Streams) : Streams :=
  if startsWith line GDB_PROMPT ≠ 0 then promptBranch line out
  else if startsWith line BREAKPOINT ≠ 0 then breakpointBranch line out
  else plainBranch line out

/-- The bytes one pass of the loop appends to the content stream for `line`. -/
def rendered (line : List Char) : List Char :=
  (body line ⟨[], []⟩).sfile

/-- The frames one pass of the loop appends to the timing stream for `line`. -/
def frames (line : List Char) : List Frame :=
  (body line ⟨[], []⟩).tfile

/-! ## The input stream and `getline` -/

/-- An input file stream: the unread bytes and two state bits. -/
structure IfStream where
  rest : List Char
  eofbit : Bool
  failbit : Bool
deriving DecidableEq, Repr

/-- The method `good()`: no state bit is set. -/
def IfStream.good (s : IfStream) : Bool :=
  !s.eofbit && !s.failbit

/-- What the extraction of `getline` leaves behind. -/
structure Extracted where
  stored : List Char
  rest : List Char
  eof : Bool
  fail : Bool
deriving DecidableEq, Repr

/-- The extraction of `istream::getline(s, n)` with `room` places left in `s`
before the terminator.  The three stop conditions are tested in the order of
the standard: end of file (`eofbit`), the next byte is the delimiter (it is
taken from the input and not stored), `n - 1` bytes are stored (`failbit`). -/
def extract : Nat → List Char → Extracted
  | _, [] => ⟨[], [], true, false⟩
  | room, c :: cs =>
    if c = '\n' then ⟨[], cs, false, false⟩
    else
      match room with
      | 0 => ⟨[], c :: cs, false, true⟩
      | room + 1 =>
        let r := extract room cs
        ⟨c :: r.stored, r.rest, r.eof, r.fail⟩

/-- The call `ifile.getline(line, n)`: the stream afterwards and the buffer
afterwards.  The stored bytes and a NUL overwrite the start of the buffer, the
bytes behind them stay.  A call that takes nothing from the input sets
`failbit`, and so does a call on a stream that is not good. -/
def getline (ifile : IfStream) (line : List Char) (n : Nat) : IfStream × List Char :=
  if ifile.good then
    let r := extract (n - 1) ifile.rest
    (⟨r.rest, r.eof, r.fail || (r.stored.isEmpty && r.eof)⟩,
     r.stored ++ NUL :: line.drop (r.stored.length + 1))
  else
    (⟨ifile.rest, ifile.eofbit, true⟩, NUL :: line.drop 1)

/-! ## `gdb2script` -/

/-- The variables of `gdb2script` while it runs. -/
structure State where
  ifile : IfStream
  sfile : List Char
  tfile : List Frame
  line : List Char
deriving DecidableEq, Repr

/-- Source lines 77-102: `while (ifile.good()) { ...; ifile.getline(line, 200); }`.
The first argument bounds the number of passes. -/
def loop : Nat → State → State
  | 0, st => st
  | fuel + 1, st =>
    if st.ifile.good then
      let out := body st.line ⟨st.sfile, st.tfile⟩
      let next := getline st.ifile st.line 200
      loop fuel ⟨next.1, out.sfile, out.tfile, next.2⟩
    else st

/-- Source lines 49-106.  `line` is the content of the buffer `char line[201]`
at entry, which the source leaves uninitialised.  Every pass of the loop but
the first follows a `getline` that took at least the delimiter from the
input, so one pass more than there are unread bytes is enough. -/
def gdb2script (ifile : IfStream) (sfile : List Char) (tfile : List Frame)
    (line : List Char) : State :=
  let sfile := sfile ++ BANNER ++ endl
  let first := getline ifile line 200
  let st := loop (first.1.rest.length + 1) ⟨first.1, sfile, tfile, first.2⟩
  ⟨st.ifile, st.sfile ++ END_OF_FILE ++ endl, st.tfile, st.line⟩

/-- A stream just opened on a file with the given bytes. -/
def openFile (bytes : List Char) : IfStream :=
  ⟨bytes, false, false⟩

/-- The content stream and the timing stream that `gdb2script` writes for an
input file, both output files being empty at the start. -/
def convert (bytes line : List Char) : Streams :=
  let st := gdb2script (openFile bytes) [] [] line
  ⟨st.sfile, st.tfile⟩

/-! ## The classifier as the specification words it -/

/-- The line categories of the specification. -/
inductive LineCategory where
  | PromptLine
  | BreakpointLine
  | PlainLine
deriving DecidableEq, Repr

/-- The classifier in the words of the specification: a prompt line begins
with the six bytes `"(gdb) "`, otherwise a breakpoint line begins with
`"Breakpoint "`, otherwise the line is plain. -/
def classifyLine (text : List Char) : LineCategory :=
  if "(gdb) ".toList.isPrefixOf text then LineCategory.PromptLine
  else if "Breakpoint ".toList.isPrefixOf text then LineCategory.BreakpointLine
  else LineCategory.PlainLine

/-- The first token of a command in the words of the specification: the
bytes before the first space, all of them when there is none. -/
def firstToken (command : List Char) : List Char :=
  command.takeWhile (fun c => c != ' ')

/-- The timed bytes of a list of frames. -/
def byteTotal (fs : List Frame) : Nat :=
  (fs.map Frame.byteCount).sum

/-- The buffer after `getline` has read `text` into it, nothing behind the terminator. -/
def bufferOf (text : String) : List Char :=
  text.toList ++ [NUL]

/-- The transcript whose lines are `ls`, each one followed by a newline. -/
def joinLines : List (List Char) → List Char
  | [] => []
  | l :: ls => l ++ '\n' :: joinLines ls

/-- The content bytes written for the lines `ls` one after the other, each
line being rendered from a buffer that holds it. -/
def renderedLines : List (List Char) → List Char
  | [] => []
  | l :: ls => rendered (l ++ [NUL]) ++ renderedLines ls

/-- The frames written for the lines `ls` one after the other. -/
def framesLines : List (List Char) → List Frame
  | [] => []
  | l :: ls => frames (l ++ [NUL]) ++ framesLines ls

/-- Whitespace in the wider reading of a token: a space or a tab. -/
def isBlank (c : Char) : Bool :=
  c == ' ' || c == '\t'

/-- The first whitespace-delimited token in the wider reading: leading
blanks are skipped, and the token is the first maximal run of bytes that are
neither a space nor a tab. -/
def whitespaceToken (command : List Char) : List Char :=
  (command.dropWhile isBlank).takeWhile (fun c => !isBlank c)

/-- The frames of a line read as consecutive byte ranges of its rendered
bytes: the bytes each frame makes visible when the typescript is played. -/
def revealed : List Frame → List Char → List (List Char)
  | [], _ => []
  | f :: fs, bytes => bytes.take f.byteCount :: revealed fs (bytes.drop f.byteCount)

/-- The bytes of a content stream between its banner line (33 bytes with the
newline) and its end line (12 bytes with the newline). -/
def sessionBody (content : List Char) : List Char :=
  (content.drop 33).take (content.length - 33 - 12)

/-! ## The `float` delays and the text of the timing stream -/

/-- A non-negative binary floating-point value, `num / 2 ^ shift`. -/
structure Binary where
  num : Nat
  shift : Nat
deriving DecidableEq, Repr

/-- The quotient `n / d` rounded to the nearest natural number, a tie going to
the even neighbour. -/
def roundHalfEven (n d : Nat) : Nat :=
  let q := n / d
  let r := n % d
  if 2 * r < d then q else if d < 2 * r then q + 1 else if q % 2 = 0 then q else q + 1

/-- The least `shift` from `s` on with `2 ^ (bits - 1) * q ≤ p * 2 ^ shift`: the
scaling at which `p / q` has a significand of `bits` bits. -/
def findShift (bits p q : Nat) : Nat → Nat → Nat
  | 0, s => s
  | fuel + 1, s =>
    if 2 ^ (bits - 1) * q ≤ p * 2 ^ s then s else findShift bits p q fuel (s + 1)

/-- The value `p / q`, below `2 ^ bits`, rounded to the nearest floating-point
value with a significand of `bits` bits, ties to even.  The exponent range is
not modelled: the delays of the program are far from its ends. -/
def roundToBits (bits p q : Nat) : Binary :=
  if p = 0 then ⟨0, 0⟩
  else
    let s := findShift bits p q 1100 0
    ⟨roundHalfEven (p * 2 ^ s) q, s⟩

/-- A decimal literal `p / q`, which has type `double` (53 bits), converted to
`float` (24 bits), as in `static const float TYPING = 0.1;`. -/
def floatLiteral (p q : Nat) : Binary :=
  let asDouble := roundToBits 53 p q
  roundToBits 24 asDouble.num (2 ^ asDouble.shift)

/-- An `int` converted to `float`. -/
def floatOfInt (n : Nat) : Binary :=
  roundToBits 24 n 1

/-- The sum of two `float` values, rounded to `float`. -/
def floatAdd (a b : Binary) : Binary :=
  roundToBits 24 (a.num * 2 ^ b.shift + b.num * 2 ^ a.shift) (2 ^ (a.shift + b.shift))

/-- Source line 51: `static const float PAUSE = 10;`. -/
def PAUSE_float : Binary := floatOfInt 10
/-- Source line 52: `static const float TYPING = 0.1;`. -/
def TYPING_float : Binary := floatLiteral 1 10
/-- Source line 53: `static const float PROMPT = 2;`. -/
def PROMPT_float : Binary := floatOfInt 2
/-- Source line 54: `static const float IMMEDIATE = 0.005;`. -/
def IMMEDIATE_float : Binary := floatLiteral 5 1000

/-- The value that `tfile << x` prints for a `float` under `fixed` and
`precision(6)` (source lines 72-73), in millionths: the exact value of `x`
rounded to six decimals, a tie going to the even neighbour. -/
def fixedMicros (x : Binary) : Nat :=
  roundHalfEven (x.num * 10 ^ 6) (2 ^ x.shift)

/-- The six decimals of a number of millionths below one million. -/
def sixDigits (n : Nat) : List Char :=
  [Nat.digitChar (n / 100000 % 10), Nat.digitChar (n / 10000 % 10),
   Nat.digitChar (n / 1000 % 10), Nat.digitChar (n / 100 % 10),
   Nat.digitChar (n / 10 % 10), Nat.digitChar (n % 10)]

/-- The text of a delay of `micros` millionths of a second in fixed notation
with six digits behind the point. -/
def fixedText (micros : Nat) : List Char :=
  Nat.toDigits 10 (micros / 1000000) ++ '.' :: sixDigits (micros % 1000000)

/-- The line of the timing file for one frame:
`tfile << delay << ' ' << count << std::endl`. -/
def frameText (f : Frame) : List Char :=
  fixedText f.delay ++ ' ' :: Nat.toDigits 10 f.byteCount ++ endl

/-- The bytes of the timing file. -/
def timingText : List Frame → List Char
  | [] => []
  | f :: fs => frameText f ++ timingText fs

/-! ## The command line: `usage` and the option loop of `main` -/

/-- The `has_arg` field of a long option. -/
inductive HasArg where
  | no_argument
  | required_argument
deriving DecidableEq, Repr

/-- One entry of the table `long_options`; the `flag` field is 0 in every
entry of the source, so `getopt_long` returns `val`. -/
structure LongOption where
  name : List Char
  has_arg : HasArg
  val : Char
deriving DecidableEq, Repr

/-- Source lines 116-122. -/
def long_options : List LongOption :=
  [⟨"typescript".toList, HasArg.required_argument, 's'⟩,
   ⟨"timing".toList, HasArg.required_argument, 't'⟩,
   ⟨"help".toList, HasArg.required_argument, 'h'⟩,
   ⟨"version".toList, HasArg.required_argument, 'V'⟩]

/-- The option string of source line 124. -/
def optstring : List Char := "s:t:hV".toList

/-- Look an option letter up in an option string: `none` when it is not an
option, otherwise whether a colon follows it, that is whether it takes an
argument. -/
def shortOption (c : Char) : List Char → Option Bool
  | [] => none
  | x :: xs =>
    if x = c ∧ c ≠ ':' then some (xs.head? == some ':') else shortOption c xs

/-- Look a long option up by name: the entry with exactly that name, otherwise
the only entry that the name abbreviates; `none` when there is no such entry or
more than one. -/
def longOption (name : List Char) : Option LongOption :=
  match long_options.find? (fun o => o.name == name) with
  | some o => some o
  | none =>
    match long_options.filter (fun o => name.isPrefixOf o.name) with
    | [o] => some o
    | _ => none

/-- What `getopt_long` makes of one element of `argv`. -/
inductive Found where
  | operand
  | terminator
  | letter (c : Char)
  | withArg (c : Char) (optarg : List Char)
  | wantsArg (c : Char)
  | bad
deriving DecidableEq, Repr

/-- One element of `argv` as `getopt_long` reads it (GNU behaviour, with
`POSIXLY_CORRECT` unset): `--` ends the options; `--name` and `--name=value`
are a long option; `-c...` is the option letter `c`, with the rest of the
element as its argument when it takes one; anything else, `-` alone included,
is an operand and is passed over.  A letter that takes no argument may be
followed by more letters in the same element; the loop of `main` leaves the
process at every such letter (`h`, `V`) and never reads them. -/
def examine (arg : List Char) : Found :=
  match arg with
  | '-' :: '-' :: [] => Found.terminator
  | '-' :: '-' :: long =>
    match longOption (long.takeWhile (fun c => c != '=')),
        long.dropWhile (fun c => c != '=') with
    | none, _ => Found.bad
    | some o, [] =>
      match o.has_arg with
      | HasArg.required_argument => Found.wantsArg o.val
      | HasArg.no_argument => Found.letter o.val
    | some o, _ :: value =>
      match o.has_arg with
      | HasArg.required_argument => Found.withArg o.val value
      | HasArg.no_argument => Found.bad
  | '-' :: c :: more =>
    match shortOption c optstring with
    | none => Found.bad
    | some false => Found.letter c
    | some true => if more = [] then Found.wantsArg c else Found.withArg c more
  | _ => Found.operand

/-- The exit status `EXIT_SUCCESS`. -/
def EXIT_SUCCESS : Nat := 0
/-- The exit status `EXIT_FAILURE`. -/
def EXIT_FAILURE : Nat := 1

/-- A process that has ended: its exit status and what it has written. -/
structure Exit where
  status : Nat
  stdout : List Char
  stderr : List Char
deriving DecidableEq, Repr

/-- The two lines that `usage` writes (source lines 22-23). -/
def usageText (progname : List Char) : List Char :=
  "Usage:\n".toList
    ++ (" ".toList ++ progname ++ " -t [timingfile] -o [typescript] [inputfile]\n".toList)

/-- Source lines 19-25: `usage(out)`; `toCerr` says that `out` is `std::cerr`,
and `stderr` is what standard error holds already. -/
def usage (progname : List Char) (toCerr : Bool) (stderr : List Char) : Exit :=
  let fail := toCerr
  if toCerr then ⟨if fail then EXIT_FAILURE else EXIT_SUCCESS, [], stderr ++ usageText progname⟩
  else ⟨if fail then EXIT_FAILURE else EXIT_SUCCESS, usageText progname, stderr⟩

/-- How the option loop of `main` ends: the process has left, or the options
are read and `main` goes on with the two file names given (if any) and the
operands. -/
inductive Ending where
  | exited (e : Exit)
  | parsed (sname tname : Option (List Char)) (operands : List (List Char))
deriving DecidableEq, Repr

/-- Source lines 124-141: the `while` loop over `getopt_long` with its
`switch`, on the elements of `argv` behind the program name.  `complaint arg`
is the message that `getopt_long` itself writes to standard error when it
returns `?` for the element `arg`; its wording belongs to the C library. -/
def optionLoop (progname : List Char) (complaint : List Char → List Char) :
    List (List Char) → Option (List Char) → Option (List Char) → List (List Char) → Ending
  | [], sname, tname, operands => Ending.parsed sname tname operands
  | arg :: rest, sname, tname, operands =>
    match examine arg with
    | Found.operand => optionLoop progname complaint rest sname tname (operands ++ [arg])
    | Found.terminator => Ending.parsed sname tname (operands ++ rest)
    | Found.bad => Ending.exited (usage progname true (complaint arg))
    | Found.letter c =>
      if c = 'V' then Ending.exited ⟨EXIT_SUCCESS, [], []⟩
      else if c = 'h' then Ending.exited (usage progname false [])
      else Ending.exited (usage progname true [])
    | Found.withArg c optarg =>
      if c = 's' then optionLoop progname complaint rest (some optarg) tname operands
      else if c = 't' then optionLoop progname complaint rest sname (some optarg) operands
      else if c = 'V' then Ending.exited ⟨EXIT_SUCCESS, [], []⟩
      else if c = 'h' then Ending.exited (usage progname false [])
      else Ending.exited (usage progname true [])
    | Found.wantsArg c =>
      match rest with
      | [] => Ending.exited (usage progname true (complaint arg))
      | optarg :: rest2 =>
        if c = 's' then optionLoop progname complaint rest2 (some optarg) tname operands
        else if c = 't' then optionLoop progname complaint rest2 sname (some optarg) operands
        else if c = 'V' then Ending.exited ⟨EXIT_SUCCESS, [], []⟩
        else if c = 'h' then Ending.exited (usage progname false [])
        else Ending.exited (usage progname true [])

/-! ## Lemmas on the string operations -/

theorem stringCompare_eq_zero (a b : List Char) : stringCompare a b = 0 ↔ a = b := by
  induction a generalizing b with
  | nil => cases b <;> simp [stringCompare]
  | cons x xs ih =>
    cases b with
    | nil => simp [stringCompare]
    | cons y ys =>
      simp only [stringCompare]
      split_ifs with h1 h2
      · simp only [Int.reduceNeg, Int.neg_eq_zero, one_ne_zero, List.cons.injEq, false_iff,
          not_and]
        intro hxy
        exact absurd (hxy ▸ h1) (lt_irrefl _)
      · simp only [one_ne_zero, List.cons.injEq, false_iff, not_and]
        intro hxy
        exact absurd (hxy ▸ h2) (lt_irrefl _)
      · have hxy : x = y := le_antisymm (not_lt.mp h2) (not_lt.mp h1)
        simp [hxy, ih]

theorem substr_zero_length (s : List Char) : substr s 0 s.length = s := by
  simp [substr]

theorem startsWith_ne_zero (LINE PREFIX : List Char) :
    startsWith LINE PREFIX ≠ 0 ↔ LINE.take PREFIX.length = PREFIX := by
  unfold startsWith
  rw [substr_zero_length]
  by_cases h : stringCompare PREFIX (LINE.take PREFIX.length) = 0
  · have e := (stringCompare_eq_zero _ _).mp h
    rw [if_pos h]
    exact ⟨fun _ => e.symm, fun _ => by decide⟩
  · have e : ¬ PREFIX = LINE.take PREFIX.length := fun e => h ((stringCompare_eq_zero _ _).mpr e)
    simp only [if_neg h, ne_eq, not_true_eq_false, false_iff]
    exact fun e2 => e e2.symm

theorem startsWith_eq_zero (LINE PREFIX : List Char) :
    startsWith LINE PREFIX = 0 ↔ LINE.take PREFIX.length ≠ PREFIX := by
  rw [ne_eq, ← startsWith_ne_zero, not_not]

theorem cstr_nil : cstr [] = [] := rfl

theorem cstr_cons (c : Char) (p : List Char) :
    cstr (c :: p) = if c = NUL then [] else c :: cstr p := by
  unfold cstr
  by_cases h : c = NUL <;> simp [List.takeWhile_cons, h]

/-- Reading `PREFIX.length` bytes at a pointer finds a NUL-free `PREFIX` exactly
when the C string at the pointer begins with it: the bytes behind the
terminator have no say. -/
theorem take_eq_iff_prefix_cstr (PREFIX LINE : List Char) (hP : NUL ∉ PREFIX) :
    LINE.take PREFIX.length = PREFIX ↔ PREFIX <+: cstr LINE := by
  induction PREFIX generalizing LINE with
  | nil => simp
  | cons p ps ih =>
    have hp : p ≠ NUL := fun e => hP (by simp [e])
    have hps : NUL ∉ ps := fun h => hP (List.mem_cons_of_mem _ h)
    cases LINE with
    | nil => simp [cstr_nil]
    | cons l ls =>
      rw [cstr_cons]
      by_cases hl : l = NUL
      · subst hl
        simp only [List.length_cons, List.take_succ_cons, List.cons.injEq, if_true,
          List.prefix_nil, reduceCtorEq, iff_false, not_and]
        intro e
        exact absurd e.symm hp
      · simp only [List.length_cons, List.take_succ_cons, List.cons.injEq, if_neg hl,
          List.cons_prefix_cons, ih ls hps]
        constructor
        · rintro ⟨e, h⟩
          exact ⟨e.symm, h⟩
        · rintro ⟨e, h⟩
          exact ⟨e.symm, h⟩

theorem nul_not_mem_GDB_PROMPT : NUL ∉ GDB_PROMPT := by decide

theorem nul_not_mem_BREAKPOINT : NUL ∉ BREAKPOINT := by decide

theorem startsWith_GDB_PROMPT (line : List Char) :
    startsWith line GDB_PROMPT ≠ 0 ↔ GDB_PROMPT <+: cstr line := by
  rw [startsWith_ne_zero, take_eq_iff_prefix_cstr _ _ nul_not_mem_GDB_PROMPT]

theorem startsWith_BREAKPOINT (line : List Char) :
    startsWith line BREAKPOINT ≠ 0 ↔ BREAKPOINT <+: cstr line := by
  rw [startsWith_ne_zero, take_eq_iff_prefix_cstr _ _ nul_not_mem_BREAKPOINT]

/-- The C string behind a prefix that the C string begins with. -/
theorem cstr_eq_append_drop (PREFIX LINE : List Char) (h : PREFIX <+: cstr LINE) :
    cstr LINE = PREFIX ++ cstr (LINE.drop PREFIX.length) := by
  induction PREFIX generalizing LINE with
  | nil => simp
  | cons p ps ih =>
    cases LINE with
    | nil => simp [cstr_nil] at h
    | cons l ls =>
      rw [cstr_cons] at h ⊢
      by_cases hl : l = NUL
      · simp [hl] at h
      · rw [if_neg hl] at h ⊢
        rw [List.cons_prefix_cons] at h
        simp only [List.length_cons, List.drop_succ_cons, List.cons_append, List.cons.injEq]
        exact ⟨h.1.symm, ih ls h.2⟩

theorem typingLoop_eq (i : Nat) (tfile : List Frame) :
    typingLoop i tfile = tfile ++ List.replicate i ⟨TYPING, 1⟩ := by
  induction i generalizing tfile with
  | zero => simp [typingLoop]
  | succ n ih =>
    rw [typingLoop, ih, List.append_assoc]
    congr 1

theorem byteTotal_append (a b : List Frame) : byteTotal (a ++ b) = byteTotal a + byteTotal b := by
  simp [byteTotal]

theorem byteTotal_replicate (i : Nat) (f : Frame) :
    byteTotal (List.replicate i f) = i * f.byteCount := by
  simp [byteTotal]

/-! ## What each branch of the loop body writes -/

theorem PROMPT_LENGTH_eq : PROMPT_LENGTH = 17 := by decide

theorem RESET_LENGTH_eq : RESET_LENGTH = 4 := by decide

theorem BREAKPOINT_LENGTH_eq : BREAKPOINT_LENGTH = 5 := by decide

theorem BELL_LENGTH_eq : BELL_LENGTH = 1 := by decide

theorem promptBranch_eq (line : List Char) (out : Streams) :
    promptBranch line out =
      ⟨out.sfile ++ (ANSI_PROMPT_COLOR ++ GDB_PROMPT ++ ANSI_INPUT_COLOR ++ cstr (line.drop 6)
          ++ (if pauseAfterLine (cstr (line.drop 6)) ≠ 0 then ANSI_BELL else [])
          ++ ANSI_RESET ++ endl),
       out.tfile ++ (⟨IMMEDIATE, PROMPT_LENGTH⟩ :: ⟨PROMPT, 1⟩ ::
          (List.replicate ((cstr (line.drop 6)).length
              + (if pauseAfterLine (cstr (line.drop 6)) ≠ 0 then 1 else 0) + 1) ⟨TYPING, 1⟩
            ++ [⟨if pauseAfterLine (cstr (line.drop 6)) ≠ 0 then PAUSE + TYPING else TYPING,
                RESET_LENGTH⟩]))⟩ := by
  unfold promptBranch
  by_cases h : pauseAfterLine (cstr (line.drop 6)) ≠ 0
  · have hP : PAUSE ≠ 0 := by decide
    simp only [if_pos h, if_pos hP, typingLoop_eq, strlen, BELL_LENGTH_eq, List.append_assoc,
      List.cons_append, List.nil_append, List.singleton_append]
  · have h0 : ¬ ((0 : Nat) ≠ 0) := by decide
    simp only [if_neg h, if_neg h0, typingLoop_eq, strlen, List.append_assoc, List.cons_append,
      List.nil_append, List.singleton_append, Nat.zero_add]

theorem breakpointBranch_eq (line : List Char) (out : Streams) :
    breakpointBranch line out =
      ⟨out.sfile ++ (ANSI_BREAK_COLOR ++ cstr line ++ ANSI_RESET ++ endl),
       out.tfile ++ [⟨IMMEDIATE, strlen line + BREAKPOINT_LENGTH + RESET_LENGTH + 1⟩]⟩ := by
  simp [breakpointBranch]

theorem plainBranch_eq (line : List Char) (out : Streams) :
    plainBranch line out =
      ⟨out.sfile ++ (cstr line ++ endl), out.tfile ++ [⟨IMMEDIATE, strlen line + 1⟩]⟩ := by
  simp [plainBranch]

/-- The loop body only appends, and what it appends does not depend on what
the streams hold already. -/
theorem body_eq (line : List Char) (out : Streams) :
    body line out = ⟨out.sfile ++ rendered line, out.tfile ++ frames line⟩ := by
  unfold rendered frames body
  by_cases h1 : startsWith line GDB_PROMPT ≠ 0
  · simp only [if_pos h1]
    rw [promptBranch_eq line out, promptBranch_eq line ⟨[], []⟩]
    simp
  · simp only [if_neg h1]
    by_cases h2 : startsWith line BREAKPOINT ≠ 0
    · simp only [if_pos h2]
      rw [breakpointBranch_eq line out, breakpointBranch_eq line ⟨[], []⟩]
      simp
    · simp only [if_neg h2]
      rw [plainBranch_eq line out, plainBranch_eq line ⟨[], []⟩]
      simp

theorem rendered_frames_prompt (line : List Char) (h : startsWith line GDB_PROMPT ≠ 0) :
    rendered line = ANSI_PROMPT_COLOR ++ GDB_PROMPT ++ ANSI_INPUT_COLOR ++ cstr (line.drop 6)
          ++ (if pauseAfterLine (cstr (line.drop 6)) ≠ 0 then ANSI_BELL else [])
          ++ ANSI_RESET ++ endl ∧
    frames line = ⟨IMMEDIATE, PROMPT_LENGTH⟩ :: ⟨PROMPT, 1⟩ ::
          (List.replicate ((cstr (line.drop 6)).length
              + (if pauseAfterLine (cstr (line.drop 6)) ≠ 0 then 1 else 0) + 1) ⟨TYPING, 1⟩
            ++ [⟨if pauseAfterLine (cstr (line.drop 6)) ≠ 0 then PAUSE + TYPING else TYPING,
                RESET_LENGTH⟩]) := by
  unfold rendered frames body
  rw [if_pos h, promptBranch_eq]
  simp

theorem rendered_frames_breakpoint (line : List Char) (h1 : startsWith line GDB_PROMPT = 0)
    (h2 : startsWith line BREAKPOINT ≠ 0) :
    rendered line = ANSI_BREAK_COLOR ++ cstr line ++ ANSI_RESET ++ endl ∧
    frames line = [⟨IMMEDIATE, strlen line + BREAKPOINT_LENGTH + RESET_LENGTH + 1⟩] := by
  unfold rendered frames body
  rw [if_neg (not_not.mpr h1), if_pos h2, breakpointBranch_eq]
  simp

theorem rendered_frames_plain (line : List Char) (h1 : startsWith line GDB_PROMPT = 0)
    (h2 : startsWith line BREAKPOINT = 0) :
    rendered line = cstr line ++ endl ∧ frames line = [⟨IMMEDIATE, strlen line + 1⟩] := by
  unfold rendered frames body
  rw [if_neg (not_not.mpr h1), if_neg (not_not.mpr h2), plainBranch_eq]
  simp

/-! ## The claims on one line -/

/-- C1, frame/content balance: whatever the buffer `line` holds (a prompt line
with or without a pausing command, a breakpoint line, a plain line, an empty
line, an empty command), one pass of the loop appends `rendered line` to the
content stream and `frames line` to the timing stream, and the byte counts of
those frames add up to the number of bytes of `rendered line`, its newline
included. -/
theorem frame_content_balance (line : List Char) (out : Streams) :
    body line out = ⟨out.sfile ++ rendered line, out.tfile ++ frames line⟩ ∧
    byteTotal (frames line) = (rendered line).length := by
  refine ⟨body_eq line out, ?_⟩
  by_cases h1 : startsWith line GDB_PROMPT ≠ 0
  · obtain ⟨hr, hf⟩ := rendered_frames_prompt line h1
    rw [hr, hf]
    have e1 : ANSI_PROMPT_COLOR.length = 5 := rfl
    have e2 : GDB_PROMPT.length = 6 := rfl
    have e3 : ANSI_INPUT_COLOR.length = 7 := rfl
    have e4 : ANSI_RESET.length = 4 := rfl
    have e5 : ANSI_BELL.length = 1 := rfl
    have e6 : endl.length = 1 := rfl
    by_cases hp : pauseAfterLine (cstr (line.drop 6)) ≠ 0
    · simp only [if_pos hp, byteTotal, List.map_cons, List.map_append, List.map_replicate,
        List.sum_cons, List.sum_append, List.sum_replicate, List.map_nil, List.sum_nil,
        List.length_append, e1, e2, e3, e4, e5, e6, PROMPT_LENGTH_eq, RESET_LENGTH_eq,
        smul_eq_mul]
      omega
    · simp only [if_neg hp, byteTotal, List.map_cons, List.map_append, List.map_replicate,
        List.sum_cons, List.sum_append, List.sum_replicate, List.map_nil, List.sum_nil,
        List.length_append, List.length_nil, e1, e2, e3, e4, e6, PROMPT_LENGTH_eq,
        RESET_LENGTH_eq, smul_eq_mul]
      omega
  · have h1' : startsWith line GDB_PROMPT = 0 := not_not.mp h1
    by_cases h2 : startsWith line BREAKPOINT ≠ 0
    · obtain ⟨hr, hf⟩ := rendered_frames_breakpoint line h1' h2
      rw [hr, hf]
      have e1 : ANSI_BREAK_COLOR.length = 5 := rfl
      have e4 : ANSI_RESET.length = 4 := rfl
      have e6 : endl.length = 1 := rfl
      simp only [byteTotal, List.map_cons, List.map_nil, List.sum_cons, List.sum_nil,
        List.length_append, e1, e4, e6, strlen, BREAKPOINT_LENGTH_eq, RESET_LENGTH_eq]
      omega
    · obtain ⟨hr, hf⟩ := rendered_frames_plain line h1' (not_not.mp h2)
      rw [hr, hf]
      have e6 : endl.length = 1 := rfl
      simp only [byteTotal, List.map_cons, List.map_nil, List.sum_cons, List.sum_nil,
        List.length_append, e6, strlen]
      omega

theorem gdb_prompt_text : "(gdb) ".toList = GDB_PROMPT := by decide

theorem breakpoint_text : "Breakpoint ".toList = BREAKPOINT := by decide

theorem not_both_prefixes (text : List Char) (h : BREAKPOINT <+: text) :
    ¬ GDB_PROMPT <+: text := by
  rintro ⟨t, ht⟩
  obtain ⟨u, hu⟩ := h
  rw [← hu] at ht
  simp [GDB_PROMPT, BREAKPOINT] at ht

/-- C2: for a buffer whose line begins with `"(gdb) "`, the command text `C`
being the C string at offset 6 (so that the line is `"(gdb) "` followed by
`C`), the frames written are (IMMEDIATE, len(PROMPT_COLOR) + 6 +
len(INPUT_COLOR) - 1), then (PROMPT, 1), then len(C) + (1 if the pause
predicate holds) + 1 frames (TYPING, 1), then one frame of RESET_LENGTH bytes
with delay PAUSE + TYPING if the predicate holds and TYPING otherwise; the
first count is 17 and RESET_LENGTH is 4. -/
theorem prompt_line_frames (line : List Char) (h : "(gdb) ".toList <+: cstr line) :
    frames line =
      ⟨IMMEDIATE, ANSI_PROMPT_COLOR.length + 6 + ANSI_INPUT_COLOR.length - 1⟩ :: ⟨PROMPT, 1⟩ ::
        (List.replicate ((cstr (line.drop 6)).length
            + (if pauseAfterLine (cstr (line.drop 6)) ≠ 0 then 1 else 0) + 1) ⟨TYPING, 1⟩
          ++ [⟨if pauseAfterLine (cstr (line.drop 6)) ≠ 0 then PAUSE + TYPING else TYPING,
              RESET_LENGTH⟩]) ∧
    cstr line = "(gdb) ".toList ++ cstr (line.drop 6) ∧
    ANSI_PROMPT_COLOR.length + 6 + ANSI_INPUT_COLOR.length - 1 = 17 ∧
    RESET_LENGTH = 4 := by
  rw [gdb_prompt_text] at h ⊢
  refine ⟨?_, cstr_eq_append_drop GDB_PROMPT line h, by decide, by decide⟩
  have hs := (startsWith_GDB_PROMPT line).mpr h
  rw [(rendered_frames_prompt line hs).2, PROMPT_LENGTH_eq]
  rfl

/-- C2 at the line `(gdb) continue`: (0.005, 17), (2.0, 1), ten (0.1, 1)
frames, then (10.1, 4), the delays in microseconds. -/
theorem prompt_line_frames_continue :
    "(gdb) ".toList <+: cstr (bufferOf "(gdb) continue") ∧
    frames (bufferOf "(gdb) continue") =
      ⟨5000, 17⟩ :: ⟨2000000, 1⟩ :: (List.replicate 10 ⟨100000, 1⟩ ++ [⟨10100000, 4⟩]) := by
  refine ⟨by decide, ?_⟩
  rw [(prompt_line_frames (bufferOf "(gdb) continue") (by decide)).1]
  decide

/-- C3: for a buffer whose line begins with `"(gdb) "`, `C` being the command
text, the bytes appended to the content stream are PROMPT_COLOR, `"(gdb) "`,
INPUT_COLOR, `C`, the bell if and only if the pause predicate holds for `C`,
RESET and one newline; so the text holds one bell byte more than `C` does when
the predicate holds and as many as `C` when it does not.  For a line that does
not begin with `"(gdb) "` (a breakpoint line or a plain line) the text holds
exactly the bell bytes of the line: none is added. -/
theorem prompt_line_text (line : List Char) :
    ("(gdb) ".toList <+: cstr line →
      rendered line =
        ANSI_PROMPT_COLOR ++ "(gdb) ".toList ++ ANSI_INPUT_COLOR ++ cstr (line.drop 6)
          ++ (if pauseAfterLine (cstr (line.drop 6)) ≠ 0 then ANSI_BELL else [])
          ++ ANSI_RESET ++ ['\n'] ∧
      (rendered line).count (Char.ofNat 7) =
        (cstr (line.drop 6)).count (Char.ofNat 7)
          + (if pauseAfterLine (cstr (line.drop 6)) ≠ 0 then 1 else 0)) ∧
    (¬ "(gdb) ".toList <+: cstr line →
      (rendered line).count (Char.ofNat 7) = (cstr line).count (Char.ofNat 7)) := by
  rw [gdb_prompt_text]
  constructor
  · intro h
    have hs := (startsWith_GDB_PROMPT line).mpr h
    have hr := (rendered_frames_prompt line hs).1
    refine ⟨hr, ?_⟩
    rw [hr]
    have c1 : ANSI_PROMPT_COLOR.count (Char.ofNat 7) = 0 := by decide
    have c2 : GDB_PROMPT.count (Char.ofNat 7) = 0 := by decide
    have c3 : ANSI_INPUT_COLOR.count (Char.ofNat 7) = 0 := by decide
    have c4 : ANSI_RESET.count (Char.ofNat 7) = 0 := by decide
    have c5 : endl.count (Char.ofNat 7) = 0 := by decide
    have c6 : ANSI_BELL.count (Char.ofNat 7) = 1 := by decide
    by_cases hp : pauseAfterLine (cstr (line.drop 6)) ≠ 0
    · simp only [if_pos hp, List.count_append, c1, c2, c3, c4, c5, c6]
      omega
    · simp only [if_neg hp, List.count_append, List.count_nil, c1, c2, c3, c4, c5]
      omega
  · intro h
    have h1 : startsWith line GDB_PROMPT = 0 := by
      by_contra hne
      exact h ((startsWith_GDB_PROMPT line).mp hne)
    have c4 : ANSI_RESET.count (Char.ofNat 7) = 0 := by decide
    have c5 : endl.count (Char.ofNat 7) = 0 := by decide
    have c7 : ANSI_BREAK_COLOR.count (Char.ofNat 7) = 0 := by decide
    by_cases h2 : startsWith line BREAKPOINT ≠ 0
    · rw [(rendered_frames_breakpoint line h1 h2).1]
      simp only [List.count_append, c4, c5, c7]
      omega
    · rw [(rendered_frames_plain line h1 (not_not.mp h2)).1]
      simp only [List.count_append, c5]
      omega

/-- C3 at the lines `(gdb) step` (pausing), `(gdb) print x` (not pausing) and
`Breakpoint 1` (with a bell byte of its own in the input). -/
theorem prompt_line_text_samples :
    rendered (bufferOf "(gdb) step") =
      ANSI_PROMPT_COLOR ++ "(gdb) ".toList ++ ANSI_INPUT_COLOR ++ "step".toList
        ++ ANSI_BELL ++ ANSI_RESET ++ ['\n'] ∧
    rendered (bufferOf "(gdb) print x") =
      ANSI_PROMPT_COLOR ++ "(gdb) ".toList ++ ANSI_INPUT_COLOR ++ "print x".toList
        ++ ANSI_RESET ++ ['\n'] ∧
    (rendered (bufferOf "Breakpoint 1")).count (Char.ofNat 7) = 0 := by
  have h1 := ((prompt_line_text (bufferOf "(gdb) step")).1 (by decide)).1
  have h2 := ((prompt_line_text (bufferOf "(gdb) print x")).1 (by decide)).1
  have h3 := (prompt_line_text (bufferOf "Breakpoint 1")).2 (by decide)
  refine ⟨?_, ?_, ?_⟩
  · rw [h1]; decide
  · rw [h2]; decide
  · rw [h3]; decide

/-! ## The pause predicate -/

theorem findFrom_eq (ch : Char) (s : List Char) (i : Nat) :
    findFrom ch s i =
      if ch ∈ s then i + (s.takeWhile (fun c => c != ch)).length else npos := by
  induction s generalizing i with
  | nil => simp [findFrom]
  | cons c cs ih =>
    by_cases h : c = ch
    · subst h
      simp [findFrom]
    · have h2 : ¬ ch = c := fun e => h e.symm
      have h3 : (c :: cs).takeWhile (fun c => c != ch)
          = c :: cs.takeWhile (fun c => c != ch) := by
        simp [List.takeWhile_cons, h]
      simp only [findFrom, if_neg h, ih, List.mem_cons, h2, false_or, h3, List.length_cons]
      split_ifs
      · omega
      · rfl

theorem take_length_takeWhile (p : Char → Bool) (s : List Char) :
    s.take (s.takeWhile p).length = s.takeWhile p := by
  induction s with
  | nil => simp
  | cons c cs ih => by_cases h : p c <;> simp [List.takeWhile_cons, h, ih]

theorem takeWhile_of_not_mem (ch : Char) (s : List Char) (h : ch ∉ s) :
    s.takeWhile (fun c => c != ch) = s := by
  induction s with
  | nil => simp
  | cons c cs ih =>
    have h1 : c ≠ ch := fun e => h (by simp [e])
    have h2 : ch ∉ cs := fun m => h (List.mem_cons_of_mem _ m)
    simp [List.takeWhile_cons, h1, ih h2]

theorem keywordLoop_cases (W : List Char) (ks : List (List Char)) :
    (keywordLoop W ks = 1 ∧ W ∈ ks) ∨ (keywordLoop W ks = 0 ∧ W ∉ ks) := by
  induction ks with
  | nil => right; simp [keywordLoop]
  | cons k more ih =>
    unfold keywordLoop
    by_cases h : stringCompare W k = 0
    · left
      rw [if_pos h]
      exact ⟨rfl, by simp [(stringCompare_eq_zero W k).mp h]⟩
    · have hne : W ≠ k := fun e => h ((stringCompare_eq_zero W k).mpr e)
      rw [if_neg h]
      rcases ih with ⟨h1, h2⟩ | ⟨h1, h2⟩
      · left; exact ⟨h1, List.mem_cons_of_mem _ h2⟩
      · right; exact ⟨h1, by simp [hne, h2]⟩

theorem keyword_length (W : List Char) (h : W ∈ KEYWORDS) : W.length ≤ 8 := by
  simp only [KEYWORDS, List.mem_cons, List.mem_singleton, List.not_mem_nil, or_false] at h
  rcases h with rfl | rfl | rfl | rfl <;> decide

/-- The word that `pauseAfterLine` looks up is a keyword exactly when the
first token is one. -/
theorem lineword_mem (C : List Char) :
    substr C 0 (find_first_of C ' ') ∈ KEYWORDS ↔ firstToken C ∈ KEYWORDS := by
  unfold substr find_first_of firstToken
  rw [findFrom_eq, List.drop_zero]
  by_cases h : ' ' ∈ C
  · rw [if_pos h, Nat.zero_add, take_length_takeWhile]
  · rw [if_neg h, takeWhile_of_not_mem ' ' C h]
    by_cases hl : C.length ≤ npos
    · rw [List.take_of_length_le hl]
    · have hlong : npos < C.length := Nat.lt_of_not_le hl
      have hn : (8 : Nat) < npos := by decide
      constructor
      · intro hk
        have := keyword_length _ hk
        rw [List.length_take, Nat.min_eq_left (Nat.le_of_lt hlong)] at this
        omega
      · intro hk
        have := keyword_length _ hk
        omega

/-- C4: `pauseAfterLine` answers 1 if the bytes of the command before its
first space (all of it when it has no space) are exactly `c`, `continue`, `s`
or `step`, and 0 for every other command. -/
theorem pauseAfterLine_iff (C : List Char) :
    (pauseAfterLine C ≠ 0 ↔
      firstToken C = "c".toList ∨ firstToken C = "continue".toList ∨
      firstToken C = "s".toList ∨ firstToken C = "step".toList) ∧
    (pauseAfterLine C = 0 ∨ pauseAfterLine C = 1) := by
  have hk : firstToken C ∈ KEYWORDS ↔
      (firstToken C = "c".toList ∨ firstToken C = "continue".toList ∨
       firstToken C = "s".toList ∨ firstToken C = "step".toList) := by
    have e1 : "c".toList = ['c'] := by decide
    have e2 : "continue".toList = ['c', 'o', 'n', 't', 'i', 'n', 'u', 'e'] := by decide
    have e3 : "s".toList = ['s'] := by decide
    have e4 : "step".toList = ['s', 't', 'e', 'p'] := by decide
    rw [e1, e2, e3, e4]
    simp only [KEYWORDS, List.mem_cons, List.mem_singleton, List.not_mem_nil, or_false]
  rw [← hk, ← lineword_mem]
  unfold pauseAfterLine
  rcases keywordLoop_cases (substr C 0 (find_first_of C ' ')) KEYWORDS with ⟨h1, h2⟩ | ⟨h1, h2⟩
  · rw [h1]
    exact ⟨⟨fun _ => h2, fun _ => by decide⟩, Or.inr rfl⟩
  · rw [h1]
    exact ⟨⟨fun h => absurd rfl h, fun h => absurd h h2⟩, Or.inl rfl⟩

/-- C4 on sample commands: whole-token equality, case-sensitive, with the
empty token answering 0. -/
theorem pauseAfterLine_samples :
    pauseAfterLine "c".toList = 1 ∧ pauseAfterLine "continue".toList = 1 ∧
    pauseAfterLine "s".toList = 1 ∧ pauseAfterLine "step".toList = 1 ∧
    pauseAfterLine "continue 3".toList = 1 ∧ pauseAfterLine "s ".toList = 1 ∧
    pauseAfterLine "continue2".toList = 0 ∧ pauseAfterLine "cc".toList = 0 ∧
    pauseAfterLine "context".toList = 0 ∧ pauseAfterLine "C".toList = 0 ∧
    pauseAfterLine "Step".toList = 0 ∧ pauseAfterLine "".toList = 0 ∧
    pauseAfterLine " c".toList = 0 ∧ pauseAfterLine "print c".toList = 0 ∧
    (pauseAfterLine "next".toList ≠ 0 ↔
      firstToken "next".toList = "c".toList ∨ firstToken "next".toList = "continue".toList ∨
      firstToken "next".toList = "s".toList ∨ firstToken "next".toList = "step".toList) := by
  refine ⟨by decide, by decide, by decide, by decide, by decide, by decide, by decide,
    by decide, by decide, by decide, by decide, by decide, by decide, by decide,
    (pauseAfterLine_iff "next".toList).1⟩

/-! ## Classification -/

/-- C5: the branch that the loop body takes for a buffer is the one the
specification names for the line in it (byte-exact prefix match, prompt
first): each `startsWith` test holds exactly when the C string in the buffer
begins with the prefix, whatever bytes lie behind the terminator.  A line
shorter than a prefix does not match it, and a prompt line is `"(gdb) "`
followed by the C string at offset 6, so that offset lies inside the line. -/
theorem line_category (line : List Char) (out : Streams) :
    body line out =
      (match classifyLine (cstr line) with
        | LineCategory.PromptLine => promptBranch line out
        | LineCategory.BreakpointLine => breakpointBranch line out
        | LineCategory.PlainLine => plainBranch line out) ∧
    (startsWith line GDB_PROMPT ≠ 0 ↔ "(gdb) ".toList <+: cstr line) ∧
    (startsWith line BREAKPOINT ≠ 0 ↔ "Breakpoint ".toList <+: cstr line) ∧
    ((cstr line).length < 6 → startsWith line GDB_PROMPT = 0) ∧
    ((cstr line).length < 11 → startsWith line BREAKPOINT = 0) ∧
    (startsWith line GDB_PROMPT ≠ 0 →
      cstr line = "(gdb) ".toList ++ cstr (line.drop 6) ∧ 6 ≤ (cstr line).length) := by
  rw [gdb_prompt_text, breakpoint_text]
  have hg := startsWith_GDB_PROMPT line
  have hb := startsWith_BREAKPOINT line
  refine ⟨?_, hg, hb, ?_, ?_, ?_⟩
  · unfold body classifyLine
    rw [gdb_prompt_text, breakpoint_text]
    by_cases h1 : startsWith line GDB_PROMPT ≠ 0
    · rw [if_pos h1, if_pos (List.isPrefixOf_iff_prefix.mpr (hg.mp h1))]
    · have n1 : ¬ GDB_PROMPT.isPrefixOf (cstr line) = true :=
        fun e => h1 (hg.mpr (List.isPrefixOf_iff_prefix.mp e))
      rw [if_neg h1, if_neg n1]
      by_cases h2 : startsWith line BREAKPOINT ≠ 0
      · rw [if_pos h2, if_pos (List.isPrefixOf_iff_prefix.mpr (hb.mp h2))]
      · have n2 : ¬ BREAKPOINT.isPrefixOf (cstr line) = true :=
          fun e => h2 (hb.mpr (List.isPrefixOf_iff_prefix.mp e))
        rw [if_neg h2, if_neg n2]
  · intro hlen
    by_contra hne
    have := (hg.mp hne).length_le
    have e : GDB_PROMPT.length = 6 := rfl
    omega
  · intro hlen
    by_contra hne
    have := (hb.mp hne).length_le
    have e : BREAKPOINT.length = 11 := rfl
    omega
  · intro hne
    have hp := hg.mp hne
    refine ⟨cstr_eq_append_drop GDB_PROMPT line hp, ?_⟩
    have := hp.length_le
    have e : GDB_PROMPT.length = 6 := rfl
    omega

/-- C5 on sample buffers: `(gdb)` without the space and the empty line are
plain; matching is case-sensitive and does not trim; the prompt test comes
first; a short line is plain also when the buffer still holds, behind its
terminator, the bytes of a longer earlier line. -/
theorem line_category_samples :
    body (bufferOf "(gdb)") ⟨[], []⟩ = plainBranch (bufferOf "(gdb)") ⟨[], []⟩ ∧
    body (bufferOf "") ⟨[], []⟩ = plainBranch (bufferOf "") ⟨[], []⟩ ∧
    body (bufferOf "(GDB) c") ⟨[], []⟩ = plainBranch (bufferOf "(GDB) c") ⟨[], []⟩ ∧
    body (bufferOf " (gdb) c") ⟨[], []⟩ = plainBranch (bufferOf " (gdb) c") ⟨[], []⟩ ∧
    body (bufferOf "breakpoint 1") ⟨[], []⟩ = plainBranch (bufferOf "breakpoint 1") ⟨[], []⟩ ∧
    body (bufferOf "Breakpoint 1") ⟨[], []⟩ =
      breakpointBranch (bufferOf "Breakpoint 1") ⟨[], []⟩ ∧
    body (bufferOf "(gdb) Breakpoint 1") ⟨[], []⟩ =
      promptBranch (bufferOf "(gdb) Breakpoint 1") ⟨[], []⟩ ∧
    body ("(gdb".toList ++ NUL :: " continue".toList ++ [NUL]) ⟨[], []⟩ =
      plainBranch ("(gdb".toList ++ NUL :: " continue".toList ++ [NUL]) ⟨[], []⟩ ∧
    (startsWith (bufferOf "(gdb) x") GDB_PROMPT ≠ 0 →
      cstr (bufferOf "(gdb) x") = "(gdb) ".toList ++ cstr ((bufferOf "(gdb) x").drop 6) ∧
      6 ≤ (cstr (bufferOf "(gdb) x")).length) := by
  refine ⟨?_, ?_, ?_, ?_, ?_, ?_, ?_, ?_, ?_⟩
  · exact (line_category (bufferOf "(gdb)") ⟨[], []⟩).1
  · exact (line_category (bufferOf "") ⟨[], []⟩).1
  · exact (line_category (bufferOf "(GDB) c") ⟨[], []⟩).1
  · exact (line_category (bufferOf " (gdb) c") ⟨[], []⟩).1
  · exact (line_category (bufferOf "breakpoint 1") ⟨[], []⟩).1
  · exact (line_category (bufferOf "Breakpoint 1") ⟨[], []⟩).1
  · exact (line_category (bufferOf "(gdb) Breakpoint 1") ⟨[], []⟩).1
  · exact (line_category ("(gdb".toList ++ NUL :: " continue".toList ++ [NUL]) ⟨[], []⟩).1
  · exact (line_category (bufferOf "(gdb) x") ⟨[], []⟩).2.2.2.2.2

/-- C6: for a buffer whose line begins with `"Breakpoint "` (such a line does
not begin with `"(gdb) "`), the bytes appended to the content stream are
BREAK_COLOR, the line, RESET and one newline, and the one frame written is
(IMMEDIATE, len(line) + len(BREAK_COLOR) + len(RESET) + 1). -/
theorem breakpoint_line (line : List Char) (h : "Breakpoint ".toList <+: cstr line) :
    ¬ "(gdb) ".toList <+: cstr line ∧
    rendered line = ANSI_BREAK_COLOR ++ cstr line ++ ANSI_RESET ++ ['\n'] ∧
    frames line =
      [⟨IMMEDIATE, (cstr line).length + ANSI_BREAK_COLOR.length + ANSI_RESET.length + 1⟩] := by
  rw [gdb_prompt_text]
  rw [breakpoint_text] at h
  have hn := not_both_prefixes (cstr line) h
  have h1 : startsWith line GDB_PROMPT = 0 := by
    by_contra hne
    exact hn ((startsWith_GDB_PROMPT line).mp hne)
  have h2 := (startsWith_BREAKPOINT line).mpr h
  obtain ⟨hr, hf⟩ := rendered_frames_breakpoint line h1 h2
  exact ⟨hn, hr, hf⟩

/-- C6 at the line `Breakpoint 1, main () at foo.c:10`: the frame is
(0.005, 43), the delay in microseconds. -/
theorem breakpoint_line_sample :
    "Breakpoint ".toList <+: cstr (bufferOf "Breakpoint 1, main () at foo.c:10") ∧
    frames (bufferOf "Breakpoint 1, main () at foo.c:10") = [⟨5000, 43⟩] ∧
    rendered (bufferOf "Breakpoint 1, main () at foo.c:10") =
      ANSI_BREAK_COLOR ++ "Breakpoint 1, main () at foo.c:10".toList ++ ANSI_RESET ++ ['\n'] := by
  have h := breakpoint_line (bufferOf "Breakpoint 1, main () at foo.c:10") (by decide)
  refine ⟨by decide, ?_, ?_⟩
  · rw [h.2.2]; decide
  · rw [h.2.1]; decide

/-- C7: for a buffer whose line begins with neither `"(gdb) "` nor
`"Breakpoint "`, the bytes appended to the content stream are the line and one
newline, nothing else, and the one frame written is (IMMEDIATE, len(line) + 1). -/
theorem plain_line (line : List Char) (h1 : ¬ "(gdb) ".toList <+: cstr line)
    (h2 : ¬ "Breakpoint ".toList <+: cstr line) :
    rendered line = cstr line ++ ['\n'] ∧
    frames line = [⟨IMMEDIATE, (cstr line).length + 1⟩] := by
  rw [gdb_prompt_text] at h1
  rw [breakpoint_text] at h2
  have g1 : startsWith line GDB_PROMPT = 0 := by
    by_contra hne
    exact h1 ((startsWith_GDB_PROMPT line).mp hne)
  have g2 : startsWith line BREAKPOINT = 0 := by
    by_contra hne
    exact h2 ((startsWith_BREAKPOINT line).mp hne)
  exact rendered_frames_plain line g1 g2

/-- C7 at the line `$1 = 42`: the text is unchanged and the frame is
(0.005, 8), the delay in microseconds. -/
theorem plain_line_sample :
    ¬ "(gdb) ".toList <+: cstr (bufferOf "$1 = 42") ∧
    ¬ "Breakpoint ".toList <+: cstr (bufferOf "$1 = 42") ∧
    rendered (bufferOf "$1 = 42") = "$1 = 42\n".toList ∧
    frames (bufferOf "$1 = 42") = [⟨5000, 8⟩] := by
  have h := plain_line (bufferOf "$1 = 42") (by decide) (by decide)
  refine ⟨by decide, by decide, ?_, ?_⟩
  · rw [h.1]; decide
  · rw [h.2]; decide

/-! ## The loop body reads the line and nothing behind it -/

theorem cstr_append_nul (l x : List Char) : cstr (l ++ NUL :: x) = cstr l := by
  induction l with
  | nil => simp [cstr_cons, cstr_nil]
  | cons c cs ih =>
    rw [List.cons_append, cstr_cons, cstr_cons, ih]

theorem cstr_drop_six (a : List Char) (h : GDB_PROMPT <+: cstr a) :
    cstr (a.drop 6) = (cstr a).drop 6 := by
  have e := cstr_eq_append_drop GDB_PROMPT a h
  have e6 : GDB_PROMPT.length = 6 := rfl
  rw [e6] at e
  conv_rhs => rw [e]
  rfl

/-- Two buffers that hold the same C string are treated alike. -/
theorem body_congr (a b : List Char) (out : Streams) (h : cstr a = cstr b) :
    body a out = body b out := by
  have g : startsWith a GDB_PROMPT ≠ 0 ↔ startsWith b GDB_PROMPT ≠ 0 := by
    rw [startsWith_GDB_PROMPT, startsWith_GDB_PROMPT, h]
  have k : startsWith a BREAKPOINT ≠ 0 ↔ startsWith b BREAKPOINT ≠ 0 := by
    rw [startsWith_BREAKPOINT, startsWith_BREAKPOINT, h]
  unfold body
  by_cases h1 : startsWith a GDB_PROMPT ≠ 0
  · rw [if_pos h1, if_pos (g.mp h1)]
    have da := cstr_drop_six a ((startsWith_GDB_PROMPT a).mp h1)
    have db := cstr_drop_six b ((startsWith_GDB_PROMPT b).mp (g.mp h1))
    unfold promptBranch strlen
    rw [da, db, h]
  · rw [if_neg h1, if_neg (fun e => h1 (g.mpr e))]
    by_cases h2 : startsWith a BREAKPOINT ≠ 0
    · rw [if_pos h2, if_pos (k.mp h2)]
      unfold breakpointBranch strlen
      rw [h]
    · rw [if_neg h2, if_neg (fun e => h2 (k.mpr e))]
      unfold plainBranch strlen
      rw [h]

theorem rendered_congr (a b : List Char) (h : cstr a = cstr b) : rendered a = rendered b := by
  unfold rendered
  rw [body_congr a b _ h]

theorem frames_congr (a b : List Char) (h : cstr a = cstr b) : frames a = frames b := by
  unfold frames
  rw [body_congr a b _ h]

/-! ## The reader -/

theorem extract_newline (room : Nat) (r : List Char) :
    extract room ('\n' :: r) = ⟨[], r, false, false⟩ := by
  cases room <;> simp [extract]

theorem extract_zero_cons (c : Char) (cs : List Char) (hc : c ≠ '\n') :
    extract 0 (c :: cs) = ⟨[], c :: cs, false, true⟩ := by
  simp [extract, hc]

theorem extract_succ_cons (k : Nat) (c : Char) (cs : List Char) (hc : c ≠ '\n') :
    extract (k + 1) (c :: cs) =
      ⟨c :: (extract k cs).stored, (extract k cs).rest, (extract k cs).eof,
        (extract k cs).fail⟩ := by
  simp [extract, hc]

theorem extract_line (l r : List Char) (hn : '\n' ∉ l) :
    ∀ room, l.length ≤ room → extract room (l ++ '\n' :: r) = ⟨l, r, false, false⟩ := by
  induction l with
  | nil =>
    intro room _
    exact extract_newline room r
  | cons c cs ih =>
    intro room hroom
    have hc : c ≠ '\n' := fun e => hn (by simp [e])
    have hcs : '\n' ∉ cs := fun m => hn (List.mem_cons_of_mem _ m)
    cases room with
    | zero => simp at hroom
    | succ k =>
      have hk : cs.length ≤ k := by
        simp only [List.length_cons] at hroom
        omega
      rw [List.cons_append, extract_succ_cons k c _ hc, ih hcs k hk]

/-- A read that meets no newline among the first `room + 1` bytes sets
`eofbit` or `failbit`. -/
theorem extract_stop (t : List Char) :
    ∀ room, '\n' ∉ t.take (room + 1) →
      (extract room t).eof = true ∨ (extract room t).fail = true := by
  induction t with
  | nil =>
    intro room _
    left
    simp [extract]
  | cons c cs ih =>
    intro room h
    have hc : c ≠ '\n' := fun e => h (by simp [e])
    cases room with
    | zero =>
      right
      rw [extract_zero_cons c cs hc]
    | succ k =>
      have hcs : '\n' ∉ cs.take (k + 1) := by
        intro m
        apply h
        rw [List.take_succ_cons]
        exact List.mem_cons_of_mem _ m
      rw [extract_succ_cons k c cs hc]
      exact ih k hcs

theorem getline_line (l r line : List Char) (hl : l.length ≤ 199) (hn : '\n' ∉ l) :
    getline ⟨l ++ '\n' :: r, false, false⟩ line 200 =
      (⟨r, false, false⟩, l ++ NUL :: line.drop (l.length + 1)) := by
  unfold getline
  have hg : (IfStream.mk (l ++ '\n' :: r) false false).good = true := rfl
  rw [if_pos hg]
  simp only [Nat.add_one_sub_one, extract_line l r hn 199 hl, Bool.and_false, Bool.or_self]

theorem getline_stop (t line : List Char) (h : '\n' ∉ t.take 200) :
    (getline ⟨t, false, false⟩ line 200).1.good = false := by
  unfold getline
  have hg : (IfStream.mk t false false).good = true := rfl
  rw [if_pos hg]
  rcases extract_stop t 199 h with e | e
  · simp [IfStream.good, e]
  · simp [IfStream.good, e]

theorem loop_stop (fuel : Nat) (st : State) (h : st.ifile.good = false) : loop fuel st = st := by
  cases fuel with
  | zero => rfl
  | succ n => simp [loop, h]

theorem loop_step (fuel : Nat) (st : State) (h : st.ifile.good = true) :
    loop (fuel + 1) st =
      loop fuel ⟨(getline st.ifile st.line 200).1, (body st.line ⟨st.sfile, st.tfile⟩).sfile,
        (body st.line ⟨st.sfile, st.tfile⟩).tfile, (getline st.ifile st.line 200).2⟩ := by
  simp [loop, h]

theorem length_le_joinLines (ls : List (List Char)) : ls.length ≤ (joinLines ls).length := by
  induction ls with
  | nil => simp
  | cons l ls ih =>
    simp only [joinLines, List.length_cons, List.length_append]
    omega

/-- The loop, entered after a first read on a transcript of lines that fit and
are newline-terminated, followed by bytes on which the reader stops: every
line is rendered in order, and the loop ends because the stream is no longer
good, not because the bound on its passes is reached. -/
theorem loop_lines (t : List Char) (ht : '\n' ∉ t.take 200) (ls : List (List Char)) :
    (∀ l ∈ ls, l.length ≤ 199 ∧ '\n' ∉ l) →
    ∀ (fuel : Nat) (sfile : List Char) (tfile : List Frame) (line : List Char),
      ls.length ≤ fuel →
      (loop fuel ⟨(getline ⟨joinLines ls ++ t, false, false⟩ line 200).1, sfile, tfile,
          (getline ⟨joinLines ls ++ t, false, false⟩ line 200).2⟩).sfile
        = sfile ++ renderedLines ls ∧
      (loop fuel ⟨(getline ⟨joinLines ls ++ t, false, false⟩ line 200).1, sfile, tfile,
          (getline ⟨joinLines ls ++ t, false, false⟩ line 200).2⟩).tfile
        = tfile ++ framesLines ls ∧
      (loop fuel ⟨(getline ⟨joinLines ls ++ t, false, false⟩ line 200).1, sfile, tfile,
          (getline ⟨joinLines ls ++ t, false, false⟩ line 200).2⟩).ifile.good = false := by
  induction ls with
  | nil =>
    intro _ fuel sfile tfile line _
    have hs := getline_stop t line ht
    simp only [joinLines, List.nil_append]
    rw [loop_stop fuel _ hs]
    simp [renderedLines, framesLines, hs]
  | cons l ls ih =>
    intro hls fuel sfile tfile line hfuel
    have hl := hls l (by simp)
    have hrest : ∀ m ∈ ls, m.length ≤ 199 ∧ '\n' ∉ m :=
      fun m hm => hls m (List.mem_cons_of_mem _ hm)
    cases fuel with
    | zero => simp at hfuel
    | succ n =>
      have hn : ls.length ≤ n := by
        simp only [List.length_cons] at hfuel
        omega
      have e : joinLines (l :: ls) ++ t = l ++ '\n' :: (joinLines ls ++ t) := by
        simp [joinLines]
      rw [e, getline_line l _ line hl.1 hl.2]
      rw [loop_step n ⟨⟨joinLines ls ++ t, false, false⟩, sfile, tfile,
        l ++ NUL :: line.drop (l.length + 1)⟩ rfl]
      have hb := body_eq (l ++ NUL :: line.drop (l.length + 1)) ⟨sfile, tfile⟩
      have hc : cstr (l ++ NUL :: line.drop (l.length + 1)) = cstr (l ++ [NUL]) := by
        rw [cstr_append_nul, cstr_append_nul]
      rw [rendered_congr _ _ hc, frames_congr _ _ hc] at hb
      simp only [hb]
      obtain ⟨i1, i2, i3⟩ := ih hrest n (sfile ++ rendered (l ++ [NUL]))
        (tfile ++ frames (l ++ [NUL])) (l ++ NUL :: line.drop (l.length + 1)) hn
      refine ⟨?_, ?_, i3⟩
      · rw [i1, renderedLines, List.append_assoc]
      · rw [i2, framesLines, List.append_assoc]

/-- The whole conversion of a transcript of lines that fit and are
newline-terminated, followed by bytes on which the reader stops. -/
theorem gdb2script_lines (ls : List (List Char)) (t line sfile : List Char)
    (tfile : List Frame) (hls : ∀ l ∈ ls, l.length ≤ 199 ∧ '\n' ∉ l)
    (ht : '\n' ∉ t.take 200) :
    (gdb2script (openFile (joinLines ls ++ t)) sfile tfile line).sfile
      = sfile ++ BANNER ++ endl ++ renderedLines ls ++ END_OF_FILE ++ endl ∧
    (gdb2script (openFile (joinLines ls ++ t)) sfile tfile line).tfile
      = tfile ++ framesLines ls ∧
    (gdb2script (openFile (joinLines ls ++ t)) sfile tfile line).ifile.good = false := by
  unfold gdb2script openFile
  have hfuel : ls.length ≤
      (getline ⟨joinLines ls ++ t, false, false⟩ line 200).1.rest.length + 1 := by
    cases ls with
    | nil => simp
    | cons l ls =>
      have hl := hls l (by simp)
      have e : joinLines (l :: ls) ++ t = l ++ '\n' :: (joinLines ls ++ t) := by
        simp [joinLines]
      rw [e, getline_line l _ line hl.1 hl.2]
      have := length_le_joinLines ls
      simp only [List.length_cons, List.length_append]
      omega
  obtain ⟨i1, i2, i3⟩ := loop_lines t ht ls hls _ (sfile ++ BANNER ++ endl) tfile line hfuel
  exact ⟨by simp only [i1], by simp only [i2], by simp only [i3]⟩

theorem convert_lines (ls : List (List Char)) (t line : List Char)
    (hls : ∀ l ∈ ls, l.length ≤ 199 ∧ '\n' ∉ l) (ht : '\n' ∉ t.take 200) :
    convert (joinLines ls ++ t) line =
      ⟨BANNER ++ endl ++ renderedLines ls ++ END_OF_FILE ++ endl, framesLines ls⟩ := by
  obtain ⟨i1, i2, _⟩ := gdb2script_lines ls t line [] [] hls ht
  unfold convert
  simp only [i1, i2, List.nil_append]

theorem first_newline (b : List Char) :
    ∀ k, '\n' ∈ b.take k → ∃ l r, b = l ++ '\n' :: r ∧ '\n' ∉ l ∧ l.length < k := by
  induction b with
  | nil =>
    intro k h
    simp at h
  | cons c cs ih =>
    intro k h
    cases k with
    | zero => simp at h
    | succ n =>
      by_cases hc : c = '\n'
      · exact ⟨[], cs, by simp [hc], by simp, by simp⟩
      · rw [List.take_succ_cons, List.mem_cons] at h
        rcases h with h | h
        · exact absurd h.symm hc
        · obtain ⟨l, r, e, hn, hl⟩ := ih n h
          refine ⟨c :: l, r, by simp [e], ?_, by simp only [List.length_cons]; omega⟩
          intro m
          rw [List.mem_cons] at m
          rcases m with m | m
          · exact hc m.symm
          · exact hn m

/-- Every input is a run of newline-terminated lines that fit the reader,
followed by bytes on which the reader stops. -/
theorem transcript_split (bytes : List Char) :
    ∃ ls t, bytes = joinLines ls ++ t ∧ (∀ l ∈ ls, l.length ≤ 199 ∧ '\n' ∉ l) ∧
      '\n' ∉ t.take 200 := by
  generalize hn : bytes.length = n
  induction n using Nat.strong_induction_on generalizing bytes with
  | _ n ih =>
    by_cases h : '\n' ∈ bytes.take 200
    · obtain ⟨l, r, e, hl, hlen⟩ := first_newline bytes 200 h
      have hr : r.length < n := by
        rw [← hn, e]
        simp only [List.length_append, List.length_cons]
        omega
      obtain ⟨ls, t, e2, hls, ht⟩ := ih r.length hr r rfl
      refine ⟨l :: ls, t, ?_, ?_, ht⟩
      · rw [e, e2]
        simp [joinLines]
      · intro m hm
        rw [List.mem_cons] at hm
        rcases hm with hm | hm
        · subst hm
          exact ⟨by omega, hl⟩
        · exact hls m hm
    · exact ⟨[], bytes, by simp [joinLines], by simp, h⟩

/-- The loop of `gdb2script` ends on every input because the stream stops
being good, never because the bound on its passes is used up. -/
theorem gdb2script_ends (bytes line sfile : List Char) (tfile : List Frame) :
    (gdb2script (openFile bytes) sfile tfile line).ifile.good = false := by
  obtain ⟨ls, t, e, hls, ht⟩ := transcript_split bytes
  rw [e]
  exact (gdb2script_lines ls t line sfile tfile hls ht).2.2

/-! ## The claims on a whole transcript -/

/-- C8 at the transcript of the two lines `a` and `b` whose last line has no
newline behind it: whatever the buffer holds at entry, only `a` is rendered and
timed, and `b`, which the last `getline` did read, is written nowhere because
that read set `eofbit`.  With the newline behind `b` both lines are rendered. -/
theorem unterminated_last_line_dropped (line : List Char) :
    convert "a\nb".toList line =
      ⟨"Script generated with gdb2script\na\nEnd of File\n".toList, [⟨5000, 2⟩]⟩ ∧
    convert "a\nb\n".toList line =
      ⟨"Script generated with gdb2script\na\nb\nEnd of File\n".toList,
        [⟨5000, 2⟩, ⟨5000, 2⟩]⟩ := by
  constructor
  · have h := convert_lines ["a".toList] "b".toList line (by decide) (by decide)
    have e : joinLines ["a".toList] ++ "b".toList = "a\nb".toList := by decide
    rw [e] at h
    rw [h]
    decide
  · have h := convert_lines ["a".toList, "b".toList] [] line (by decide) (by decide)
    have e : joinLines ["a".toList, "b".toList] ++ [] = "a\nb\n".toList := by decide
    rw [e] at h
    rw [h]
    decide

set_option maxRecDepth 100000 in
/-- C9 at transcripts with a long line: whatever the buffer holds at entry, a
line of 200 bytes, newline-terminated and followed by the line `b`, sets
`failbit` in the first read, so nothing is rendered, neither the long line nor
`b`; behind a line `x` a line of 201 bytes stops the conversion likewise; a
line of 199 bytes is rendered in full and the conversion goes on to `b`. -/
theorem long_line_stops_conversion (line : List Char) :
    convert (List.replicate 200 'a' ++ "\nb\n".toList) line =
      ⟨"Script generated with gdb2script\nEnd of File\n".toList, []⟩ ∧
    convert ("x\n".toList ++ List.replicate 201 'a' ++ "\nb\n".toList) line =
      ⟨"Script generated with gdb2script\nx\nEnd of File\n".toList, [⟨5000, 2⟩]⟩ ∧
    convert (List.replicate 199 'a' ++ "\nb\n".toList) line =
      ⟨"Script generated with gdb2script\n".toList ++ List.replicate 199 'a'
          ++ "\nb\nEnd of File\n".toList,
        [⟨5000, 200⟩, ⟨5000, 2⟩]⟩ := by
  refine ⟨?_, ?_, ?_⟩
  · have h := convert_lines [] (List.replicate 200 'a' ++ "\nb\n".toList) line
      (by decide) (by decide)
    rw [joinLines, List.nil_append] at h
    rw [h]
    decide
  · have h := convert_lines ["x".toList] (List.replicate 201 'a' ++ "\nb\n".toList) line
      (by decide) (by decide)
    have e : joinLines ["x".toList] ++ (List.replicate 201 'a' ++ "\nb\n".toList)
        = "x\n".toList ++ List.replicate 201 'a' ++ "\nb\n".toList := by decide
    rw [e] at h
    rw [h]
    decide
  · have h := convert_lines [List.replicate 199 'a', "b".toList] [] line
      (by decide) (by decide)
    have e : joinLines [List.replicate 199 'a', "b".toList] ++ []
        = List.replicate 199 'a' ++ "\nb\n".toList := by decide
    rw [e] at h
    rw [h]
    decide

/-- C10: for every input and whatever the buffer holds at entry, the content
stream is the banner line, then the renderings of lines of the input (the
lines `ls`, a run of lines at the start of the input), then the line
`End of File`, and the timing stream holds the frames of those lines only; so
the content stream begins with the banner line and ends with the end line.
For the empty input the content stream is the two lines alone and the timing
stream is empty. -/
theorem session_bracketing (bytes line : List Char) :
    (∃ ls, joinLines ls <+: bytes ∧
      (convert bytes line).sfile =
        "Script generated with gdb2script\n".toList ++ renderedLines ls
          ++ "End of File\n".toList ∧
      (convert bytes line).tfile = framesLines ls) ∧
    "Script generated with gdb2script\n".toList <+: (convert bytes line).sfile ∧
    "End of File\n".toList <:+ (convert bytes line).sfile ∧
    convert [] line = ⟨"Script generated with gdb2script\nEnd of File\n".toList, []⟩ := by
  have eb : "Script generated with gdb2script\n".toList = BANNER ++ endl := by decide
  have ee : "End of File\n".toList = END_OF_FILE ++ endl := by decide
  obtain ⟨ls, t, e, hls, ht⟩ := transcript_split bytes
  have h := convert_lines ls t line hls ht
  rw [← e] at h
  have hs : (convert bytes line).sfile =
      "Script generated with gdb2script\n".toList ++ renderedLines ls
        ++ "End of File\n".toList := by
    rw [h, eb, ee]
    simp only [List.append_assoc]
  refine ⟨⟨ls, ⟨t, e.symm⟩, hs, by rw [h]⟩, ?_, ?_, ?_⟩
  · rw [hs, List.append_assoc]
    exact List.prefix_append _ _
  · rw [hs]
    exact List.suffix_append _ _
  · have h0 := convert_lines [] [] line (by simp) (by simp)
    rw [joinLines, List.nil_append] at h0
    rw [h0]
    decide

/-! ## The pause predicate and the wider reading of a token -/

theorem pause_iff_mem (C : List Char) : pauseAfterLine C ≠ 0 ↔ firstToken C ∈ KEYWORDS := by
  rw [← lineword_mem]
  unfold pauseAfterLine
  rcases keywordLoop_cases (substr C 0 (find_first_of C ' ')) KEYWORDS with ⟨h1, h2⟩ | ⟨h1, h2⟩
  · rw [h1]
    exact ⟨fun _ => h2, fun _ => by decide⟩
  · rw [h1]
    exact ⟨fun h => absurd rfl h, fun h => absurd h h2⟩

theorem takeWhile_not_blank (l : List Char) (htab : '\t' ∉ l) :
    l.takeWhile (fun c => !isBlank c) = l.takeWhile (fun c => c != ' ') := by
  induction l with
  | nil => rfl
  | cons c cs ih =>
    have hc : c ≠ '\t' := fun e => htab (by simp [e])
    have hcs : '\t' ∉ cs := fun m => htab (List.mem_cons_of_mem _ m)
    by_cases hs : c = ' '
    · subst hs
      have hb : isBlank ' ' = true := by decide
      have hne : (' ' != ' ') = false := by decide
      simp only [List.takeWhile_cons, hb, hne, Bool.not_true]
      rfl
    · have hb : isBlank c = false := by simp [isBlank, hs, hc]
      have hne : (c != ' ') = true := by simp [hs]
      simp only [List.takeWhile_cons, hb, hne, Bool.not_false, if_true, ih hcs]

/-- A command without a tab that does not begin with a space has the same
token in both readings. -/
theorem whitespaceToken_eq_firstToken (C : List Char) (htab : '\t' ∉ C)
    (hsp : C.head? ≠ some ' ') : whitespaceToken C = firstToken C := by
  unfold whitespaceToken firstToken
  cases C with
  | nil => rfl
  | cons c cs =>
    have hc : c ≠ '\t' := fun e => htab (by simp [e])
    have hs : c ≠ ' ' := fun e => hsp (by simp [e])
    have hd : (c :: cs).dropWhile isBlank = c :: cs := by
      simp [List.dropWhile_cons, isBlank, hc, hs]
    rw [hd, takeWhile_not_blank _ htab]

/-- C11 as stated fails: in the prompt line `(gdb)  continue` the command text
is ` continue`, whose first whitespace-delimited token (leading blanks
skipped) is `continue`, and in `(gdb) c<tab>3` the token is `c`, yet the pause
predicate is false for both commands, so the stated equivalence does not hold
for them. -/
theorem pause_whitespace_token_fails :
    cstr ((bufferOf "(gdb)  continue").drop 6) = " continue".toList ∧
    whitespaceToken " continue".toList = "continue".toList ∧
    ¬ (pauseAfterLine " continue".toList ≠ 0 ↔
        whitespaceToken " continue".toList ∈
          ["c".toList, "continue".toList, "s".toList, "step".toList]) ∧
    cstr ((bufferOf "(gdb) c\t3").drop 6) = "c\t3".toList ∧
    whitespaceToken "c\t3".toList = "c".toList ∧
    ¬ (pauseAfterLine "c\t3".toList ≠ 0 ↔
        whitespaceToken "c\t3".toList ∈
          ["c".toList, "continue".toList, "s".toList, "step".toList]) := by
  refine ⟨by decide, by decide, by decide, by decide, by decide, by decide⟩

/-- C11 amended: for a buffer whose line begins with `"(gdb) "`, `C` being
the command text at offset 6, the pause predicate is true if and only if the
bytes of `C` before its first space (all of `C` when it has no space) are
exactly `c`, `continue`, `s` or `step`; a tab does not end the token and
leading spaces are not skipped.  When `C` has no tab and does not begin with a
space this token is the first whitespace-delimited token, and the equivalence
holds in that reading too. -/
theorem pause_first_space_token (line : List Char) (h : "(gdb) ".toList <+: cstr line) :
    cstr line = "(gdb) ".toList ++ cstr (line.drop 6) ∧
    (pauseAfterLine (cstr (line.drop 6)) ≠ 0 ↔
      firstToken (cstr (line.drop 6)) ∈
        ["c".toList, "continue".toList, "s".toList, "step".toList]) ∧
    ('\t' ∉ cstr (line.drop 6) → (cstr (line.drop 6)).head? ≠ some ' ' →
      (pauseAfterLine (cstr (line.drop 6)) ≠ 0 ↔
        whitespaceToken (cstr (line.drop 6)) ∈
          ["c".toList, "continue".toList, "s".toList, "step".toList])) := by
  have ek : ["c".toList, "continue".toList, "s".toList, "step".toList] = KEYWORDS := by decide
  rw [ek]
  rw [gdb_prompt_text] at h ⊢
  refine ⟨cstr_eq_append_drop GDB_PROMPT line h, pause_iff_mem _, ?_⟩
  intro htab hsp
  rw [whitespaceToken_eq_firstToken _ htab hsp]
  exact pause_iff_mem _

/-- C11 amended, at the lines `(gdb) continue 3` (pausing), `(gdb)  continue`
and `(gdb) c<tab>3` (not pausing). -/
theorem pause_first_space_token_samples :
    "(gdb) ".toList <+: cstr (bufferOf "(gdb) continue 3") ∧
    pauseAfterLine (cstr ((bufferOf "(gdb) continue 3").drop 6)) ≠ 0 ∧
    firstToken (cstr ((bufferOf "(gdb)  continue").drop 6)) = [] ∧
    pauseAfterLine (cstr ((bufferOf "(gdb)  continue").drop 6)) = 0 ∧
    firstToken (cstr ((bufferOf "(gdb) c\t3").drop 6)) = "c\t3".toList ∧
    pauseAfterLine (cstr ((bufferOf "(gdb) c\t3").drop 6)) = 0 := by
  have h1 := (pause_first_space_token (bufferOf "(gdb) continue 3") (by decide)).2.1
  refine ⟨by decide, h1.mpr (by decide), by decide, by decide, by decide, by decide⟩

/-! ## Lines one after the other -/

theorem joinLines_append (a b : List (List Char)) :
    joinLines (a ++ b) = joinLines a ++ joinLines b := by
  induction a with
  | nil => rfl
  | cons l ls ih => simp [joinLines, ih]

theorem renderedLines_append (a b : List (List Char)) :
    renderedLines (a ++ b) = renderedLines a ++ renderedLines b := by
  induction a with
  | nil => rfl
  | cons l ls ih => simp [renderedLines, ih]

theorem framesLines_append (a b : List (List Char)) :
    framesLines (a ++ b) = framesLines a ++ framesLines b := by
  induction a with
  | nil => rfl
  | cons l ls ih => simp [framesLines, ih]

theorem byteTotal_cons (f : Frame) (fs : List Frame) :
    byteTotal (f :: fs) = f.byteCount + byteTotal fs := by
  simp [byteTotal]

theorem byteTotal_nil : byteTotal [] = 0 := rfl

/-- The timed bytes of one line are its rendered bytes. -/
theorem byteTotal_frames (line : List Char) :
    byteTotal (frames line) = (rendered line).length := by
  have e1 : ANSI_PROMPT_COLOR.length = 5 := rfl
  have e2 : GDB_PROMPT.length = 6 := rfl
  have e3 : ANSI_INPUT_COLOR.length = 7 := rfl
  have e4 : ANSI_RESET.length = 4 := rfl
  have e5 : ANSI_BELL.length = 1 := rfl
  have e6 : endl.length = 1 := rfl
  have e7 : ANSI_BREAK_COLOR.length = 5 := rfl
  by_cases h1 : startsWith line GDB_PROMPT ≠ 0
  · obtain ⟨hr, hf⟩ := rendered_frames_prompt line h1
    rw [hr, hf, byteTotal_cons, byteTotal_cons, byteTotal_append, byteTotal_replicate,
      byteTotal_cons, byteTotal_nil]
    simp only [List.length_append, e1, e2, e3, e4, e6, PROMPT_LENGTH_eq, RESET_LENGTH_eq]
    split_ifs
    · rw [e5]
      omega
    · simp only [List.length_nil]
      omega
  · have h0 : startsWith line GDB_PROMPT = 0 := not_not.mp h1
    by_cases h2 : startsWith line BREAKPOINT ≠ 0
    · obtain ⟨hr, hf⟩ := rendered_frames_breakpoint line h0 h2
      rw [hr, hf, byteTotal_cons, byteTotal_nil]
      simp only [List.length_append, e4, e6, e7, strlen, BREAKPOINT_LENGTH_eq, RESET_LENGTH_eq]
      omega
    · obtain ⟨hr, hf⟩ := rendered_frames_plain line h0 (not_not.mp h2)
      rw [hr, hf, byteTotal_cons, byteTotal_nil]
      simp only [List.length_append, e6, strlen]

theorem byteTotal_framesLines (ls : List (List Char)) :
    byteTotal (framesLines ls) = (renderedLines ls).length := by
  induction ls with
  | nil => rfl
  | cons l ls ih =>
    rw [framesLines, renderedLines, byteTotal_append, List.length_append, ih, byteTotal_frames]

/-- The buffer after a line has been read into it holds that line as its C
string, whatever the buffer held before. -/
theorem cstr_getline (L r b : List Char) (hl : L.length ≤ 199) (hn : '\n' ∉ L) :
    cstr (getline ⟨L ++ '\n' :: r, false, false⟩ b 200).2 = cstr (L ++ [NUL]) := by
  rw [getline_line L r b hl hn, cstr_append_nul, cstr_append_nul]

/-- C12: a line `L` that the reader yields is treated the same whatever was
read before it.  Read into two buffers `b1` and `b2` that hold different
earlier bytes, it makes the loop body write the same; the text and the
frames written are those of a buffer that holds `L` and nothing else, and so
is the category; and in a whole conversion the bytes and frames written for
`L` are the same behind every sequence `before` of earlier lines.  The bytes
that an earlier, longer line left behind the terminator of `L` have no say,
also when `L` is shorter than the compared prefix. -/
theorem line_independent (L : List Char) (hl : L.length ≤ 199) (hn : '\n' ∉ L) :
    (∀ (b1 b2 r : List Char) (out : Streams),
      body (getline ⟨L ++ '\n' :: r, false, false⟩ b1 200).2 out =
        body (getline ⟨L ++ '\n' :: r, false, false⟩ b2 200).2 out) ∧
    (∀ (b r : List Char),
      rendered (getline ⟨L ++ '\n' :: r, false, false⟩ b 200).2 = rendered (L ++ [NUL]) ∧
      frames (getline ⟨L ++ '\n' :: r, false, false⟩ b 200).2 = frames (L ++ [NUL]) ∧
      classifyLine (cstr (getline ⟨L ++ '\n' :: r, false, false⟩ b 200).2) =
        classifyLine (cstr (L ++ [NUL]))) ∧
    (∀ (before : List (List Char)) (t line : List Char),
      (∀ l ∈ before, l.length ≤ 199 ∧ '\n' ∉ l) → '\n' ∉ t.take 200 →
      convert (joinLines before ++ (L ++ '\n' :: t)) line =
        ⟨BANNER ++ endl ++ renderedLines before ++ rendered (L ++ [NUL]) ++ END_OF_FILE ++ endl,
         framesLines before ++ frames (L ++ [NUL])⟩) := by
  refine ⟨?_, ?_, ?_⟩
  · intro b1 b2 r out
    apply body_congr
    rw [cstr_getline L r b1 hl hn, cstr_getline L r b2 hl hn]
  · intro b r
    have hc := cstr_getline L r b hl hn
    exact ⟨rendered_congr _ _ hc, frames_congr _ _ hc, by rw [hc]⟩
  · intro before t line hb ht
    have hall : ∀ l ∈ before ++ [L], l.length ≤ 199 ∧ '\n' ∉ l := by
      intro l hm
      rw [List.mem_append, List.mem_singleton] at hm
      rcases hm with hm | hm
      · exact hb l hm
      · subst hm
        exact ⟨hl, hn⟩
    have h := convert_lines (before ++ [L]) t line hall ht
    have e : joinLines (before ++ [L]) ++ t = joinLines before ++ (L ++ '\n' :: t) := by
      rw [joinLines_append]
      simp [joinLines]
    rw [e, renderedLines_append, framesLines_append] at h
    rw [h]
    simp [renderedLines, framesLines]

/-- C12 at the short lines of the claim: `(gdb` read into the buffer that
still holds `(gdb) continue`, and `Break` read into the buffer that still
holds `Breakpoint 1`; both are written as plain lines. -/
theorem line_independent_samples :
    (getline ⟨"(gdb\nnext".toList, false, false⟩ (bufferOf "(gdb) continue") 200).2 =
      "(gdb".toList ++ NUL :: " continue".toList ++ [NUL] ∧
    rendered (getline ⟨"(gdb\nnext".toList, false, false⟩ (bufferOf "(gdb) continue") 200).2 =
      "(gdb\n".toList ∧
    frames (getline ⟨"(gdb\nnext".toList, false, false⟩ (bufferOf "(gdb) continue") 200).2 =
      [⟨5000, 5⟩] ∧
    (getline ⟨"Break\n".toList, false, false⟩ (bufferOf "Breakpoint 1") 200).2 =
      "Break".toList ++ NUL :: "oint 1".toList ++ [NUL] ∧
    rendered (getline ⟨"Break\n".toList, false, false⟩ (bufferOf "Breakpoint 1") 200).2 =
      "Break\n".toList := by
  have h1 := (line_independent "(gdb".toList (by decide) (by decide)).2.1
    (bufferOf "(gdb) continue") "next".toList
  have h2 := (line_independent "Break".toList (by decide) (by decide)).2.1
    (bufferOf "Breakpoint 1") []
  refine ⟨by decide, ?_, ?_, by decide, ?_⟩
  · exact h1.1.trans (by decide)
  · exact h1.2.1.trans (by decide)
  · exact h2.1.trans (by decide)

/-! ## Accounting and composition over a whole session -/

theorem banner_line_length : (BANNER ++ endl).length = 33 := by decide

theorem end_line_length : (END_OF_FILE ++ endl).length = 12 := by decide

theorem sessionBody_eq (middle : List Char) :
    sessionBody (BANNER ++ endl ++ middle ++ END_OF_FILE ++ endl) = middle := by
  unfold sessionBody
  have e : BANNER ++ endl ++ middle ++ END_OF_FILE ++ endl
      = (BANNER ++ endl) ++ (middle ++ (END_OF_FILE ++ endl)) := by
    simp only [List.append_assoc]
  rw [e]
  have hl : ((BANNER ++ endl) ++ (middle ++ (END_OF_FILE ++ endl))).length
      = 33 + (middle.length + 12) := by
    rw [List.length_append, banner_line_length, List.length_append, end_line_length]
  have hd : ((BANNER ++ endl) ++ (middle ++ (END_OF_FILE ++ endl))).drop 33
      = middle ++ (END_OF_FILE ++ endl) := by
    rw [← banner_line_length]
    simp
  have k : 33 + (middle.length + 12) - 33 - 12 = middle.length := by omega
  rw [hl, hd, k]
  simp

/-- C17: for every input and whatever the buffer holds at entry, the content
stream is the 33 bytes of the banner line, then bytes that are all timed,
then the 12 bytes of the end line; the byte counts of all frames of the
timing stream add up to the number of the bytes in between, that is to the
length of the content stream less 33 and less 12. -/
theorem session_accounting (bytes line : List Char) :
    (∃ middle, (convert bytes line).sfile =
        "Script generated with gdb2script\n".toList ++ middle ++ "End of File\n".toList ∧
      byteTotal (convert bytes line).tfile = middle.length) ∧
    byteTotal (convert bytes line).tfile = (convert bytes line).sfile.length - 33 - 12 ∧
    byteTotal (convert bytes line).tfile + 33 + 12 = (convert bytes line).sfile.length ∧
    "Script generated with gdb2script\n".toList.length = 33 ∧
    "End of File\n".toList.length = 12 := by
  have eb : "Script generated with gdb2script\n".toList = BANNER ++ endl := by decide
  have ee : "End of File\n".toList = END_OF_FILE ++ endl := by decide
  obtain ⟨ls, t, e, hls, ht⟩ := transcript_split bytes
  have h := convert_lines ls t line hls ht
  rw [← e] at h
  have hb := byteTotal_framesLines ls
  have hlen : (convert bytes line).sfile.length = 33 + (renderedLines ls).length + 12 := by
    rw [h]
    simp only [List.append_assoc, List.length_append]
    have := banner_line_length
    have := end_line_length
    simp only [List.length_append] at *
    omega
  refine ⟨⟨renderedLines ls, ?_, ?_⟩, ?_, ?_, by decide, by decide⟩
  · rw [h, eb, ee]
    simp only [List.append_assoc]
  · rw [h]
    exact hb
  · rw [hlen, h]
    simp only []
    omega
  · rw [hlen, h]
    simp only []
    omega

/-- C18: for a transcript `A` of newline-terminated lines of at most 199 bytes
each (the most that `getline(line, 200)` stores) and every transcript `B`,
the timing stream of `A` followed by `B` is that of `A` followed by that of
`B`, and the bytes between the banner line and the end line are those of `A`
followed by those of `B`, whatever the buffer holds at the entry of each of
the three conversions. -/
theorem convert_append (A : List (List Char)) (B line1 line2 line3 : List Char)
    (hA : ∀ l ∈ A, l.length ≤ 199 ∧ '\n' ∉ l) :
    (convert (joinLines A ++ B) line1).tfile =
      (convert (joinLines A) line2).tfile ++ (convert B line3).tfile ∧
    sessionBody (convert (joinLines A ++ B) line1).sfile =
      sessionBody (convert (joinLines A) line2).sfile ++ sessionBody (convert B line3).sfile := by
  obtain ⟨ls, t, e, hls, ht⟩ := transcript_split B
  have hall : ∀ l ∈ A ++ ls, l.length ≤ 199 ∧ '\n' ∉ l := by
    intro l hm
    rw [List.mem_append] at hm
    rcases hm with hm | hm
    · exact hA l hm
    · exact hls l hm
  have hAB := convert_lines (A ++ ls) t line1 hall ht
  have eAB : joinLines (A ++ ls) ++ t = joinLines A ++ B := by
    rw [joinLines_append, e, List.append_assoc]
  rw [eAB, renderedLines_append, framesLines_append] at hAB
  have hA2 := convert_lines A [] line2 hA (by simp)
  rw [List.append_nil] at hA2
  have hB := convert_lines ls t line3 hls ht
  rw [← e] at hB
  rw [hAB, hA2, hB]
  refine ⟨rfl, ?_⟩
  simp only []
  rw [sessionBody_eq, sessionBody_eq, sessionBody_eq]

/-- C18 at `A` = the lines `(gdb) c` and `$1 = 42`, `B` = the line `(gdb) s`
followed by an unterminated `x`. -/
theorem convert_append_sample :
    (∀ l ∈ ["(gdb) c".toList, "$1 = 42".toList], l.length ≤ 199 ∧ '\n' ∉ l) ∧
    (convert ("(gdb) c\n$1 = 42\n".toList ++ "(gdb) s\nx".toList) []).tfile =
      (convert "(gdb) c\n$1 = 42\n".toList []).tfile ++ (convert "(gdb) s\nx".toList []).tfile ∧
    sessionBody (convert ("(gdb) c\n$1 = 42\n".toList ++ "(gdb) s\nx".toList) []).sfile =
      sessionBody (convert "(gdb) c\n$1 = 42\n".toList []).sfile
        ++ sessionBody (convert "(gdb) s\nx".toList []).sfile := by
  have h := convert_append ["(gdb) c".toList, "$1 = 42".toList] "(gdb) s\nx".toList [] [] []
    (by decide)
  have e : joinLines ["(gdb) c".toList, "$1 = 42".toList] = "(gdb) c\n$1 = 42\n".toList := by
    decide
  rw [e] at h
  exact ⟨by decide, h.1, h.2⟩

/-! ## The frames of a prompt line as byte ranges -/

theorem revealed_ones (d : Nat) (X : List Char) (fs : List Frame) (rest : List Char) :
    revealed (List.replicate X.length ⟨d, 1⟩ ++ fs) (X ++ rest)
      = X.map (fun c => [c]) ++ revealed fs rest := by
  induction X with
  | nil => simp
  | cons c cs ih =>
    rw [List.length_cons, List.replicate_succ, List.cons_append, List.cons_append, revealed]
    show [c] :: revealed (List.replicate cs.length ⟨d, 1⟩ ++ fs) (cs ++ rest) = _
    rw [ih]
    rfl

/-- The byte ranges behind the first two frames of a prompt line, `X` being
the bytes that the typing frames show one by one and `d` the last delay. -/
theorem revealed_prompt_shape (d : Nat) (X : List Char) :
    revealed
        (⟨IMMEDIATE, 17⟩ :: ⟨PROMPT, 1⟩ :: (List.replicate X.length ⟨TYPING, 1⟩ ++ [⟨d, 4⟩]))
        ((ANSI_PROMPT_COLOR ++ GDB_PROMPT ++ ANSI_INPUT_COLOR.take 6)
          ++ (ANSI_INPUT_COLOR.drop 6 ++ (X ++ (ANSI_RESET.drop 1 ++ endl))))
      = (ANSI_PROMPT_COLOR ++ GDB_PROMPT ++ ANSI_INPUT_COLOR.take 6) :: ANSI_INPUT_COLOR.drop 6 ::
          (X.map (fun c => [c]) ++ [ANSI_RESET.drop 1 ++ endl]) := by
  have l17 : (ANSI_PROMPT_COLOR ++ GDB_PROMPT ++ ANSI_INPUT_COLOR.take 6).length = 17 := rfl
  have l1 : (ANSI_INPUT_COLOR.drop 6).length = 1 := rfl
  rw [revealed]
  show List.take 17 _ :: revealed _ (List.drop 17 _) = _
  rw [List.take_left' l17, List.drop_left' l17, revealed]
  show _ :: (List.take 1 _ :: revealed _ (List.drop 1 _)) = _
  rw [List.take_left' l1, List.drop_left' l1, revealed_ones]
  rfl

/-- The byte ranges of a prompt line: all of the prompt colour and the prompt
and the input colour but its last byte; that last byte; one range for each
byte of the command, for the bell if there is one, and for the first byte of
the reset sequence; then the other three bytes of the reset sequence together
with the newline. -/
theorem revealed_prompt (line : List Char) (h : startsWith line GDB_PROMPT ≠ 0) :
    revealed (frames line) (rendered line) =
      (ANSI_PROMPT_COLOR ++ GDB_PROMPT ++ ANSI_INPUT_COLOR.take 6) :: ANSI_INPUT_COLOR.drop 6 ::
        ((cstr (line.drop 6)
            ++ (if pauseAfterLine (cstr (line.drop 6)) ≠ 0 then ANSI_BELL else [])
            ++ ANSI_RESET.take 1).map (fun c => [c])
          ++ [ANSI_RESET.drop 1 ++ endl]) := by
  obtain ⟨hr, hf⟩ := rendered_frames_prompt line h
  rw [hr, hf, PROMPT_LENGTH_eq, RESET_LENGTH_eq]
  generalize cstr (line.drop 6) = C
  have hI : ANSI_INPUT_COLOR = ANSI_INPUT_COLOR.take 6 ++ ANSI_INPUT_COLOR.drop 6 := rfl
  have hT : ANSI_RESET = ANSI_RESET.take 1 ++ ANSI_RESET.drop 1 := rfl
  by_cases hp : pauseAfterLine C ≠ 0
  · simp only [if_pos hp]
    have hX : C.length + 1 + 1 = (C ++ ANSI_BELL ++ ANSI_RESET.take 1).length := by
      simp [ANSI_BELL, ANSI_RESET]
    have hR : ANSI_PROMPT_COLOR ++ GDB_PROMPT ++ ANSI_INPUT_COLOR ++ C ++ ANSI_BELL
          ++ ANSI_RESET ++ endl
        = (ANSI_PROMPT_COLOR ++ GDB_PROMPT ++ ANSI_INPUT_COLOR.take 6)
          ++ (ANSI_INPUT_COLOR.drop 6
            ++ ((C ++ ANSI_BELL ++ ANSI_RESET.take 1) ++ (ANSI_RESET.drop 1 ++ endl))) := by
      conv_lhs => rw [hI, hT]
      simp only [List.append_assoc]
    rw [hX, hR, revealed_prompt_shape]
  · simp only [if_neg hp]
    have hX : C.length + 0 + 1 = (C ++ [] ++ ANSI_RESET.take 1).length := by
      simp [ANSI_RESET]
    have hR : ANSI_PROMPT_COLOR ++ GDB_PROMPT ++ ANSI_INPUT_COLOR ++ C ++ []
          ++ ANSI_RESET ++ endl
        = (ANSI_PROMPT_COLOR ++ GDB_PROMPT ++ ANSI_INPUT_COLOR.take 6)
          ++ (ANSI_INPUT_COLOR.drop 6
            ++ ((C ++ [] ++ ANSI_RESET.take 1) ++ (ANSI_RESET.drop 1 ++ endl))) := by
      conv_lhs => rw [hI, hT]
      simp only [List.append_assoc]
    rw [hX, hR, revealed_prompt_shape]

theorem getLast_pair (l : List α) (a b : α) : (l ++ [a, b]).getLast? = some b := by
  have e : l ++ [a, b] = (l ++ [a]) ++ [b] := by simp
  rw [e, List.getLast?_concat]

/-- C15 as stated fails: for the prompt line `(gdb) next` the last frame is
(TYPING, RESET_LENGTH), and the four bytes it covers are the bytes `[0m` and
the newline, not the bytes of the reset sequence, whose first byte (the
escape byte) is covered by the frame before. -/
theorem last_frame_not_reset :
    "(gdb) ".toList <+: cstr (bufferOf "(gdb) next") ∧
    (frames (bufferOf "(gdb) next")).getLast? = some ⟨TYPING, RESET_LENGTH⟩ ∧
    (revealed (frames (bufferOf "(gdb) next")) (rendered (bufferOf "(gdb) next"))).getLast?
      = some "[0m\n".toList ∧
    ¬ (revealed (frames (bufferOf "(gdb) next")) (rendered (bufferOf "(gdb) next"))).getLast?
      = some ANSI_RESET := by
  refine ⟨by decide, by decide, by decide, by decide⟩

/-- C15 amended: for a buffer whose line begins with `"(gdb) "`, the last
frame carries the delay TYPING, or PAUSE + TYPING when the command pauses,
and RESET_LENGTH bytes; read as consecutive byte ranges, the bytes it covers
are the last three bytes of the reset sequence followed by the newline of the
line, and the range before it, of a (TYPING, 1) frame, is the first byte of
the reset sequence, so that the sequence is complete once the last frame is
shown. -/
theorem last_frame_bytes (line : List Char) (h : "(gdb) ".toList <+: cstr line) :
    (frames line).getLast? =
      some ⟨if pauseAfterLine (cstr (line.drop 6)) ≠ 0 then PAUSE + TYPING else TYPING,
        RESET_LENGTH⟩ ∧
    (revealed (frames line) (rendered line)).getLast? = some (ANSI_RESET.drop 1 ++ ['\n']) ∧
    (∃ earlier, revealed (frames line) (rendered line) =
      earlier ++ [ANSI_RESET.take 1, ANSI_RESET.drop 1 ++ ['\n']]) ∧
    (∃ earlier, frames line = earlier ++
      [⟨TYPING, 1⟩,
        ⟨if pauseAfterLine (cstr (line.drop 6)) ≠ 0 then PAUSE + TYPING else TYPING,
          RESET_LENGTH⟩]) := by
  rw [gdb_prompt_text] at h
  have hs := (startsWith_GDB_PROMPT line).mpr h
  have hf := (rendered_frames_prompt line hs).2
  have hv := revealed_prompt line hs
  generalize cstr (line.drop 6) = C at hf hv ⊢
  generalize (if pauseAfterLine C ≠ 0 then ANSI_BELL else []) = bell at hv
  generalize (if pauseAfterLine C ≠ 0 then PAUSE + TYPING else TYPING) = d at hf ⊢
  generalize (C.length + if pauseAfterLine C ≠ 0 then 1 else 0) = n at hf
  have hm : (C ++ bell ++ ANSI_RESET.take 1).map (fun c => [c])
      = (C ++ bell).map (fun c => [c]) ++ [ANSI_RESET.take 1] := by
    rw [List.map_append]
    rfl
  have hv2 : revealed (frames line) (rendered line) =
      ((ANSI_PROMPT_COLOR ++ GDB_PROMPT ++ ANSI_INPUT_COLOR.take 6) :: ANSI_INPUT_COLOR.drop 6 ::
        (C ++ bell).map (fun c => [c])) ++ [ANSI_RESET.take 1, ANSI_RESET.drop 1 ++ ['\n']] := by
    rw [hv, hm]
    simp [endl]
  have hf2 : frames line =
      (⟨IMMEDIATE, PROMPT_LENGTH⟩ :: ⟨PROMPT, 1⟩ :: List.replicate n ⟨TYPING, 1⟩)
        ++ [⟨TYPING, 1⟩, ⟨d, RESET_LENGTH⟩] := by
    rw [hf, List.replicate_succ']
    simp
  refine ⟨?_, ?_, ⟨_, hv2⟩, ⟨_, hf2⟩⟩
  · rw [hf2]
    exact getLast_pair _ _ _
  · rw [hv2]
    exact getLast_pair _ _ _

/-- C15 amended, at the lines `(gdb) continue` and `(gdb) next`. -/
theorem last_frame_bytes_samples :
    "(gdb) ".toList <+: cstr (bufferOf "(gdb) continue") ∧
    (frames (bufferOf "(gdb) continue")).getLast? = some ⟨10100000, 4⟩ ∧
    (revealed (frames (bufferOf "(gdb) continue")) (rendered (bufferOf "(gdb) continue"))).getLast?
      = some "[0m\n".toList ∧
    (frames (bufferOf "(gdb) next")).getLast? = some ⟨100000, 4⟩ := by
  have h1 := last_frame_bytes (bufferOf "(gdb) continue") (by decide)
  have h2 := last_frame_bytes (bufferOf "(gdb) next") (by decide)
  refine ⟨by decide, h1.1.trans (by decide), h1.2.1.trans (by decide), h2.1.trans (by decide)⟩

/-- C16: for a buffer whose line begins with `"(gdb) "`, `C` being the
command text, the first two frames are (IMMEDIATE, 17) and (PROMPT, 1); read
as consecutive byte ranges they cover the prompt colour, the prompt and the
input colour, all of them and nothing more, and the command begins right
behind these bytes, so no byte of `C` is among them; and for every position
`i` of `C` (counted from 0) the frame that follows the first two and `i`
others is a (TYPING, 1) frame whose range is the one byte of `C` at that
position. -/
theorem prompt_keystrokes (line : List Char) (h : "(gdb) ".toList <+: cstr line) :
    (frames line).take 2 = [⟨IMMEDIATE, 17⟩, ⟨PROMPT, 1⟩] ∧
    (revealed (frames line) (rendered line)).take 2 =
      [ANSI_PROMPT_COLOR ++ "(gdb) ".toList ++ ANSI_INPUT_COLOR.take 6,
        ANSI_INPUT_COLOR.drop 6] ∧
    (ANSI_PROMPT_COLOR ++ "(gdb) ".toList ++ ANSI_INPUT_COLOR.take 6) ++ ANSI_INPUT_COLOR.drop 6
      = ANSI_PROMPT_COLOR ++ "(gdb) ".toList ++ ANSI_INPUT_COLOR ∧
    (∃ tail, rendered line =
      (ANSI_PROMPT_COLOR ++ "(gdb) ".toList ++ ANSI_INPUT_COLOR) ++ (cstr (line.drop 6) ++ tail)) ∧
    (∀ i (hi : i < (cstr (line.drop 6)).length),
      (frames line)[i + 2]? = some ⟨TYPING, 1⟩ ∧
      (revealed (frames line) (rendered line))[i + 2]? = some [(cstr (line.drop 6))[i]]) := by
  rw [gdb_prompt_text] at h ⊢
  have hs := (startsWith_GDB_PROMPT line).mpr h
  obtain ⟨hr, hf⟩ := rendered_frames_prompt line hs
  have hv := revealed_prompt line hs
  refine ⟨?_, ?_, rfl, ?_, ?_⟩
  · rw [hf, PROMPT_LENGTH_eq]
    rfl
  · rw [hv]
    rfl
  · refine ⟨(if pauseAfterLine (cstr (line.drop 6)) ≠ 0 then ANSI_BELL else [])
      ++ ANSI_RESET ++ endl, ?_⟩
    rw [hr]
    simp only [List.append_assoc]
  · intro i hi
    constructor
    · rw [hf, List.getElem?_cons_succ, List.getElem?_cons_succ,
        List.getElem?_append_left (by rw [List.length_replicate]; omega),
        List.getElem?_replicate, if_pos (by omega)]
    · rw [hv, List.getElem?_cons_succ, List.getElem?_cons_succ,
        List.getElem?_append_left (by
          rw [List.length_map, List.length_append, List.length_append]; omega),
        List.getElem?_map, List.append_assoc, List.getElem?_append_left hi,
        List.getElem?_eq_getElem hi]
      rfl

/-- C16 at the line `(gdb) step`: the frames behind the first two show
`s`, `t`, `e`, `p` one by one. -/
theorem prompt_keystrokes_sample :
    "(gdb) ".toList <+: cstr (bufferOf "(gdb) step") ∧
    (revealed (frames (bufferOf "(gdb) step")) (rendered (bufferOf "(gdb) step"))).take 6 =
      [ANSI_PROMPT_COLOR ++ "(gdb) ".toList ++ ANSI_INPUT_COLOR.take 6, ['m'],
        ['s'], ['t'], ['e'], ['p']] ∧
    (frames (bufferOf "(gdb) step")).take 6 =
      [⟨5000, 17⟩, ⟨2000000, 1⟩, ⟨100000, 1⟩, ⟨100000, 1⟩, ⟨100000, 1⟩, ⟨100000, 1⟩] ∧
    (frames (bufferOf "(gdb) step")).take 2 = [⟨IMMEDIATE, 17⟩, ⟨PROMPT, 1⟩] := by
  have h := prompt_keystrokes (bufferOf "(gdb) step") (by decide)
  exact ⟨by decide, by decide, by decide, h.1⟩

/-! ## The text of the timing stream -/

theorem frames_delay (line : List Char) :
    ∀ f ∈ frames line,
      f.delay = IMMEDIATE ∨ f.delay = PROMPT ∨ f.delay = TYPING ∨ f.delay = PAUSE + TYPING := by
  intro f hf
  by_cases h1 : startsWith line GDB_PROMPT ≠ 0
  · rw [(rendered_frames_prompt line h1).2] at hf
    simp only [List.mem_cons, List.mem_append, List.mem_replicate, List.mem_singleton,
      List.not_mem_nil, or_false] at hf
    rcases hf with rfl | rfl | ⟨_, rfl⟩ | rfl
    · exact Or.inl rfl
    · exact Or.inr (Or.inl rfl)
    · exact Or.inr (Or.inr (Or.inl rfl))
    · by_cases hp : pauseAfterLine (cstr (line.drop 6)) ≠ 0
      · exact Or.inr (Or.inr (Or.inr (by simp only [if_pos hp])))
      · exact Or.inr (Or.inr (Or.inl (by simp only [if_neg hp])))
  · have h0 : startsWith line GDB_PROMPT = 0 := not_not.mp h1
    by_cases h2 : startsWith line BREAKPOINT ≠ 0
    · rw [(rendered_frames_breakpoint line h0 h2).2, List.mem_singleton] at hf
      subst hf
      exact Or.inl rfl
    · rw [(rendered_frames_plain line h0 (not_not.mp h2)).2, List.mem_singleton] at hf
      subst hf
      exact Or.inl rfl

theorem mem_framesLines (f : Frame) (ls : List (List Char)) (h : f ∈ framesLines ls) :
    ∃ l ∈ ls, f ∈ frames (l ++ [NUL]) := by
  induction ls with
  | nil => simp [framesLines] at h
  | cons l ls ih =>
    rw [framesLines, List.mem_append] at h
    rcases h with h | h
    · exact ⟨l, by simp, h⟩
    · obtain ⟨m, hm, hf⟩ := ih h
      exact ⟨m, List.mem_cons_of_mem _ hm, hf⟩

theorem digitChar_isDigit (k : Nat) (h : k < 10) : (Nat.digitChar k).isDigit = true := by
  interval_cases k <;> decide

theorem sixDigits_digits (n : Nat) : ∀ c ∈ sixDigits n, c.isDigit = true := by
  intro c hc
  simp only [sixDigits, List.mem_cons, List.mem_singleton, List.not_mem_nil, or_false] at hc
  rcases hc with rfl | rfl | rfl | rfl | rfl | rfl <;>
    exact digitChar_isDigit _ (Nat.mod_lt _ (by decide))

theorem delay_text (d : Nat)
    (h : d = IMMEDIATE ∨ d = PROMPT ∨ d = TYPING ∨ d = PAUSE + TYPING) :
    fixedText d = "0.005000".toList ∨ fixedText d = "2.000000".toList ∨
    fixedText d = "0.100000".toList ∨ fixedText d = "10.100000".toList := by
  rcases h with rfl | rfl | rfl | rfl
  · exact Or.inl (by decide)
  · exact Or.inr (Or.inl (by decide))
  · exact Or.inr (Or.inr (Or.inl (by decide)))
  · exact Or.inr (Or.inr (Or.inr (by decide)))

/-- C13: every frame that a conversion writes, and every frame written for any
one line, gives the timing-file line made of its delay in fixed notation, one
space, its byte count in decimal and a newline, and its delay text is one of
`0.005000`, `2.000000`, `0.100000`, `10.100000`.  A delay text is the whole
seconds, a point and exactly six digits.  The delays held in millionths are
what the `float` values of the source print as: 0.005 and 0.1 are `double`
literals rounded to `float`, 2 and 10 are exact, and the last delay is the
`float` sum of the `int` 0 or 10 and TYPING, each printed by rounding its
exact value to six decimals. -/
theorem timing_line_format (bytes line : List Char) :
    (∀ f ∈ (convert bytes line).tfile,
      frameText f = fixedText f.delay ++ [' '] ++ Nat.toDigits 10 f.byteCount ++ ['\n'] ∧
      (fixedText f.delay = "0.005000".toList ∨ fixedText f.delay = "2.000000".toList ∨
       fixedText f.delay = "0.100000".toList ∨ fixedText f.delay = "10.100000".toList)) ∧
    (∀ f ∈ frames line,
      fixedText f.delay = "0.005000".toList ∨ fixedText f.delay = "2.000000".toList ∨
      fixedText f.delay = "0.100000".toList ∨ fixedText f.delay = "10.100000".toList) ∧
    (∀ micros, ∃ frac,
      fixedText micros = Nat.toDigits 10 (micros / 1000000) ++ '.' :: frac ∧
      frac.length = 6 ∧ ∀ c ∈ frac, c.isDigit = true) ∧
    (fixedMicros IMMEDIATE_float = IMMEDIATE ∧ fixedMicros PROMPT_float = PROMPT ∧
     fixedMicros TYPING_float = TYPING ∧
     fixedMicros (floatAdd (floatOfInt 0) TYPING_float) = 0 + TYPING ∧
     fixedMicros (floatAdd (floatOfInt 10) TYPING_float) = PAUSE + TYPING ∧
     PAUSE_float.num = 10 * 2 ^ PAUSE_float.shift) ∧
    (fixedText IMMEDIATE = "0.005000".toList ∧ fixedText PROMPT = "2.000000".toList ∧
     fixedText TYPING = "0.100000".toList ∧ fixedText (PAUSE + TYPING) = "10.100000".toList) := by
  refine ⟨?_, ?_, ?_, ?_, ?_⟩
  · intro f hf
    obtain ⟨ls, t, e, hls, ht⟩ := transcript_split bytes
    have h := convert_lines ls t line hls ht
    rw [← e] at h
    rw [h] at hf
    obtain ⟨l, _, hl⟩ := mem_framesLines f ls hf
    refine ⟨?_, delay_text f.delay (frames_delay _ f hl)⟩
    simp [frameText, endl]
  · intro f hf
    exact delay_text f.delay (frames_delay line f hf)
  · intro micros
    exact ⟨sixDigits (micros % 1000000), rfl, rfl, sixDigits_digits _⟩
  · refine ⟨by decide, by decide, by decide, by decide, by decide, by decide⟩
  · refine ⟨by decide, by decide, by decide, by decide⟩

/-- C13 at the transcript of the lines `(gdb) c` and `Breakpoint 1, main ()`:
the bytes of the timing file. -/
theorem timing_line_format_sample :
    timingText (convert "(gdb) c\nBreakpoint 1, main ()\n".toList []).tfile =
      ("0.005000 17\n2.000000 1\n0.100000 1\n0.100000 1\n0.100000 1\n10.100000 4\n"
        ++ "0.005000 31\n").toList ∧
    (∀ f ∈ (convert "(gdb) c\nBreakpoint 1, main ()\n".toList []).tfile,
      fixedText f.delay = "0.005000".toList ∨ fixedText f.delay = "2.000000".toList ∨
      fixedText f.delay = "0.100000".toList ∨ fixedText f.delay = "10.100000".toList) := by
  refine ⟨by decide, fun f hf => ?_⟩
  exact ((timing_line_format "(gdb) c\nBreakpoint 1, main ()\n".toList []).1 f hf).2

/-! ## The command line -/

/-- C14 at the argument lists `--help` and `--version`: the table
`long_options` gives both `required_argument`, so with no further argument
`getopt_long` returns `?`, and the loop writes the usage text to standard error
(behind the complaint of `getopt_long`) and leaves with EXIT_FAILURE; nothing
goes to standard output.  The short forms behave as the claim says: `-h`
writes the usage text to standard output and leaves with EXIT_SUCCESS, `-V`
leaves with EXIT_SUCCESS and writes nothing.  The long forms do so only when an
argument is given to them. -/
theorem long_help_requires_argument (progname : List Char)
    (complaint : List Char → List Char) :
    optionLoop progname complaint ["--help".toList] none none [] =
      Ending.exited ⟨EXIT_FAILURE, [], complaint "--help".toList ++ usageText progname⟩ ∧
    optionLoop progname complaint ["--version".toList] none none [] =
      Ending.exited ⟨EXIT_FAILURE, [], complaint "--version".toList ++ usageText progname⟩ ∧
    optionLoop progname complaint ["-h".toList] none none [] =
      Ending.exited ⟨EXIT_SUCCESS, usageText progname, []⟩ ∧
    optionLoop progname complaint ["-V".toList] none none [] =
      Ending.exited ⟨EXIT_SUCCESS, [], []⟩ ∧
    optionLoop progname complaint ["--help=x".toList] none none [] =
      Ending.exited ⟨EXIT_SUCCESS, usageText progname, []⟩ ∧
    optionLoop progname complaint ["--version".toList, "x".toList] none none [] =
      Ending.exited ⟨EXIT_SUCCESS, [], []⟩ ∧
    (long_options.map (fun o => (o.name, o.has_arg))).filter (fun e => e.2 = HasArg.no_argument)
      = [] ∧
    shortOption 'h' optstring = some false ∧ shortOption 'V' optstring = some false := by
  refine ⟨rfl, rfl, rfl, rfl, rfl, rfl, by decide, by decide, by decide⟩

end GDB2Script
